import Mathlib

/-!
# Verification of the dj-automix fuzzy song index (`src/index/fuzzy_index.py`)

Shallow embedding of the indexing/search engine.  Conventions:

* Text is modelled as `List Nat` of ASCII code points (the engine's regular
  expressions are modelled on their ASCII fragment).
* Python floats are modelled as exact rationals `ℚ`.
* The external `rapidfuzz` similarity metric (`fuzz.WRatio`) is not part of the
  repository; every definition that needs it takes it as a parameter
  `wr : Str → Str → ℚ`; the spec only guarantees that it is bounded in `[0, 100]`.
* The JSON byte codec (`orjson`/`json`) is external as well; serialization is
  modelled down to a JSON value AST (`Jv`), treating the AST ↔ bytes layer of the
  library as the trusted boundary.
-/

set_option maxHeartbeats 1000000

attribute [local semireducible] Rat.add Rat.mul Rat.sub Rat.inv Rat.ofScientific

abbrev Str := List Nat

/-- Convert a Lean string literal to the code-point representation. -/
def strOf (s : String) : Str := s.data.map Char.toNat

/-- ASCII lower-casing, as applied by Python's `str.lower` on ASCII text. -/
def lowerCh (c : Nat) : Nat := if 65 ≤ c ∧ c ≤ 90 then c + 32 else c

/-- `\w` (ASCII fragment): letters, digits, underscore. -/
def isWordCh (c : Nat) : Bool :=
  (48 ≤ c && c ≤ 57) || (65 ≤ c && c ≤ 90) || (97 ≤ c && c ≤ 122) || c == 95

/-- `\s` (ASCII fragment): space, tab, newline, vertical tab, form feed, carriage return. -/
def isWsCh (c : Nat) : Bool :=
  c == 32 || c == 9 || c == 10 || c == 11 || c == 12 || c == 13

/-- The characters kept (not replaced by a space) by `norm`'s substitution
`re.sub(r"[^\w\s+#/.-]", " ", s)`: word chars, whitespace and `+ # / . -`. -/
def isKeptCh (c : Nat) : Bool :=
  isWordCh c || isWsCh c || c == 43 || c == 35 || c == 47 || c == 46 || c == 45

/-- `re.sub(r"\s+", " ", s)`: every maximal whitespace run becomes one space. -/
def collapseWs : Str → Str
  | [] => []
  | [c] => [if isWsCh c then 32 else c]
  | a :: b :: t =>
    if isWsCh a && isWsCh b then collapseWs (b :: t)
    else (if isWsCh a then 32 else a) :: collapseWs (b :: t)

/-- Python `str.strip()` (ASCII whitespace). -/
def pyStrip (s : Str) : Str :=
  ((s.dropWhile (fun c => isWsCh c)).reverse.dropWhile (fun c => isWsCh c)).reverse

/-- `norm(s)` from the source: lower-case, replace every character outside
`[\w\s+#/.-]` by a space, collapse whitespace runs, strip. -/
def norm (s : Str) : Str :=
  pyStrip (collapseWs ((s.map lowerCh).map (fun c => if isKeptCh c then c else 32)))

/-! ## Substring search and replacement (`in`, `str.replace`) -/

/-- `leadsWith p s`: `p` is a prefix of `s`. -/
def leadsWith : Str → Str → Bool
  | [], _ => true
  | _ :: _, [] => false
  | p :: ps, c :: cs => p == c && leadsWith ps cs

/-- Python's `p in s` substring test. -/
def hasSub (p : Str) : Str → Bool
  | [] => leadsWith p []
  | c :: cs => leadsWith p (c :: cs) || hasSub p cs

/-- Fuel-driven worker for `replaceAll` (fuel bounds the number of scan steps). -/
def replaceAllAux (p r : Str) : Nat → Str → Str
  | 0, s => s
  | _ + 1, [] => []
  | f + 1, c :: cs =>
    if leadsWith p (c :: cs) then r ++ replaceAllAux p r f (List.drop (p.length - 1) cs)
    else c :: replaceAllAux p r f cs

/-- Python `s.replace(p, r)` for a non-empty pattern `p`: replace every
non-overlapping occurrence, scanning left to right. -/
def replaceAll (p r s : Str) : Str := replaceAllAux p r s.length s

def majPat : Str := strOf " major"

def minPat : Str := strOf " minor"

/-- The key compaction applied both in `Song.normalized` (`key_n`) and to key filter
values in `filter_candidates`: `norm(s).replace(" major","").replace(" minor","m")`. -/
def normalize_key (s : Str) : Str :=
  replaceAll minPat (strOf "m") (replaceAll majPat [] (norm s))

/-! ## Integer parsing and printing (`to_int`, `str(int)`) -/

def isDigitCh (c : Nat) : Bool := 48 ≤ c && c ≤ 57

/-- Digit run with single internal underscores (Python 3 `int` literals), continued. -/
def udigitsGo : Nat → Str → Option Nat
  | acc, [] => some acc
  | acc, c :: cs =>
    if isDigitCh c then udigitsGo (10 * acc + (c - 48)) cs
    else if c == 95 then
      match cs with
      | [] => none
      | d :: cs' => if isDigitCh d then udigitsGo (10 * acc + (d - 48)) cs' else none
    else none

/-- Unsigned decimal numeral with Python's underscore rule: digit groups separated
by single underscores, starting and ending with a digit. -/
def udigits : Str → Option Nat
  | [] => none
  | c :: cs => if isDigitCh c then udigitsGo (c - 48) cs else none

/-- `to_int(x)` from the source: `int(str(x).strip())`, `None` on failure. -/
def to_int (s : Str) : Option Int :=
  match pyStrip s with
  | 43 :: r => (udigits r).map (fun n => (n : Int))
  | 45 :: r => (udigits r).map (fun n => -(n : Int))
  | r => (udigits r).map (fun n => (n : Int))

/-- Decimal digits of a natural number (fuel-driven so that it kernel-reduces). -/
def natStrAux : Nat → Nat → Str
  | 0, _ => []
  | f + 1, n => if n < 10 then [48 + n] else natStrAux f (n / 10) ++ [48 + n % 10]

def natStr (n : Nat) : Str := natStrAux (n + 1) n

/-- Python `str` of an integer. -/
def intStr (z : Int) : Str := if z < 0 then 45 :: natStr z.natAbs else natStr z.natAbs

/-! ## Track records and normalized records -/

structure Song where
  title : Str := []
  artist : Str := []
  album : Str := []
  key : Str := []
  bpm : Str := []
  path : Str := []
deriving DecidableEq

structure NormRec where
  title_n : Str := []
  artist_n : Str := []
  album_n : Str := []
  key_n : Str := []
  bpm_n : Str := []
  path_n : Str := []
deriving DecidableEq

def dSong : Song := {}

def dNorm : NormRec := {}

/-- `"bpm_n": str(to_int(self.bpm) or "")` — note Python's `or`: both an
unparsable bpm and a bpm parsing to `0` yield the empty string. -/
def bpmStrOf (b : Str) : Str :=
  match to_int b with
  | none => []
  | some n => if n = 0 then [] else intStr n

/-- `Song.normalized` from the source. -/
def Song.normalized (s : Song) : NormRec :=
  { title_n := norm s.title
    artist_n := norm s.artist
    album_n := norm s.album
    key_n := normalize_key s.key
    bpm_n := bpmStrOf s.bpm
    path_n := norm s.path }

def sepBar : Str := strOf " | "

/-- The coarse search text: `" | ".join([title_n, artist_n, album_n])`. -/
def coarseText (n : NormRec) : Str := n.title_n ++ sepBar ++ n.artist_n ++ sepBar ++ n.album_n

/-! ## The index -/

structure SongIndex where
  items : List Song
  norms : List NormRec
  search_texts : List Str
deriving DecidableEq

/-- `SongIndex.__init__`: precompute normalized records and coarse search texts. -/
def SongIndex.build (items : List Song) : SongIndex :=
  { items := items
    norms := items.map Song.normalized
    search_texts := items.map (fun s => coarseText s.normalized) }

/-- The alignment invariant of the three parallel sequences. -/
def Aligned (ix : SongIndex) : Prop :=
  ix.norms.length = ix.items.length ∧ ix.search_texts.length = ix.items.length ∧
  ∀ i < ix.items.length,
    ix.norms.getD i dNorm = (ix.items.getD i dSong).normalized ∧
    ix.search_texts.getD i [] = coarseText (ix.norms.getD i dNorm)

instance (ix : SongIndex) : Decidable (Aligned ix) := by
  unfold Aligned; infer_instance

/-! ## Persistence (`to_bytes` / `from_bytes`), down to a JSON value AST -/

inductive Jv where
  | jstr : Str → Jv
  | jarr : List Jv → Jv
  | jobj : List (Str × Jv) → Jv

/-- `asdict(song)` as a JSON object. -/
def encSong (s : Song) : Jv :=
  .jobj [(strOf "title", .jstr s.title), (strOf "artist", .jstr s.artist),
         (strOf "album", .jstr s.album), (strOf "key", .jstr s.key),
         (strOf "bpm", .jstr s.bpm), (strOf "path", .jstr s.path)]

/-- `Song(**d)`: rebuild a `Song` from its field dictionary. -/
def decSong : Jv → Option Song
  | .jobj [(k1, .jstr t), (k2, .jstr a), (k3, .jstr al), (k4, .jstr k), (k5, .jstr b), (k6, .jstr p)] =>
    if k1 = strOf "title" ∧ k2 = strOf "artist" ∧ k3 = strOf "album" ∧
       k4 = strOf "key" ∧ k5 = strOf "bpm" ∧ k6 = strOf "path" then
      some { title := t, artist := a, album := al, key := k, bpm := b, path := p }
    else none
  | _ => none

def encNorm (n : NormRec) : Jv :=
  .jobj [(strOf "title_n", .jstr n.title_n), (strOf "artist_n", .jstr n.artist_n),
         (strOf "album_n", .jstr n.album_n), (strOf "key_n", .jstr n.key_n),
         (strOf "bpm_n", .jstr n.bpm_n), (strOf "path_n", .jstr n.path_n)]

def decNorm : Jv → Option NormRec
  | .jobj [(k1, .jstr t), (k2, .jstr a), (k3, .jstr al), (k4, .jstr k), (k5, .jstr b), (k6, .jstr p)] =>
    if k1 = strOf "title_n" ∧ k2 = strOf "artist_n" ∧ k3 = strOf "album_n" ∧
       k4 = strOf "key_n" ∧ k5 = strOf "bpm_n" ∧ k6 = strOf "path_n" then
      some { title_n := t, artist_n := a, album_n := al, key_n := k, bpm_n := b, path_n := p }
    else none
  | _ => none

def decStr : Jv → Option Str
  | .jstr s => some s
  | _ => none

/-- `SongIndex.to_bytes`: the serialized payload
`{"items": [...], "norms": [...], "search_texts": [...]}`. -/
def SongIndex.to_bytes (ix : SongIndex) : Jv :=
  .jobj [(strOf "items", .jarr (ix.items.map encSong)),
         (strOf "norms", .jarr (ix.norms.map encNorm)),
         (strOf "search_texts", .jarr (ix.search_texts.map Jv.jstr))]

/-- `SongIndex.from_bytes`: rebuild `SongIndex(items)`, then overwrite `norms` and
`search_texts` with the stored (precomputed) sequences, without recomputation. -/
def SongIndex.from_bytes (j : Jv) : Option SongIndex :=
  match j with
  | .jobj [(k1, .jarr its), (k2, .jarr ns), (k3, .jarr ts)] =>
    if k1 = strOf "items" ∧ k2 = strOf "norms" ∧ k3 = strOf "search_texts" then
      match its.mapM decSong, ns.mapM decNorm, ts.mapM decStr with
      | some items, some norms, some texts =>
        some { SongIndex.build items with norms := norms, search_texts := texts }
      | _, _, _ => none
    else none
  | _ => none

/-! ## The query grammar (`parse_query`), modelling the three regexes

`re.search`/`re.findall`/`re.sub` are modelled by deterministic scanners over the
code-point list.  Each matcher takes the previous character (for `\b`) and the
current suffix, and returns the consumed length (always ≥ 1) plus a token. -/

/-- `\b` before a word character holds iff the previous character is absent or
a non-word character. -/
def boundaryOk (prev : Option Nat) : Bool :=
  match prev with
  | none => true
  | some c => !(isWordCh c)

/-- Count and drop leading whitespace (`\s*`, greedy). -/
def dropWsCount : Str → Nat × Str
  | [] => (0, [])
  | c :: cs => if isWsCh c then ((dropWsCount cs).1 + 1, (dropWsCount cs).2) else (0, c :: cs)

/-- Take a leading digit run (`\d*`, greedy). -/
def takeDigits : Str → Str × Str
  | [] => ([], [])
  | c :: cs => if isDigitCh c then ((c :: (takeDigits cs).1), (takeDigits cs).2) else ([], c :: cs)

def digitsToNat (d : Str) : Nat := d.foldl (fun a c => 10 * a + (c - 48)) 0

/-- Take a leading run of non-apostrophe characters (`[^']*`, greedy). -/
def takeNotApos : Str → Str × Str
  | [] => ([], [])
  | c :: cs => if c == 39 then ([], c :: cs) else ((c :: (takeNotApos cs).1), (takeNotApos cs).2)

/-- Require one exact character; return the remaining input. -/
def chEq (t : Nat) : Str → Option Str
  | [] => none
  | c :: r => if c == t then some r else none

/-- Require one character case-insensitively; return the remaining input. -/
def chCI (t : Nat) : Str → Option Str
  | [] => none
  | c :: r => if lowerCh c == t then some r else none

/-- Match `\bbpm\s*:\s*(\d+)\s*\.\.\s*(\d+)` (case-insensitive) at the head of `s`.
Each character is tested before the rest of the input is examined. -/
def matchRange (prev : Option Nat) (s : Str) : Option (Nat × (Nat × Nat)) :=
  if !boundaryOk prev then none else
  (chCI 98 s).bind fun s1 =>
  (chCI 112 s1).bind fun s2 =>
  (chCI 109 s2).bind fun rest =>
  let u1 := dropWsCount rest
  (chEq 58 u1.2).bind fun r2 =>
  let u2 := dropWsCount r2
  let d1 := takeDigits u2.2
  if d1.1 = [] then none else
  let u3 := dropWsCount d1.2
  (chEq 46 u3.2).bind fun r5 =>
  (chEq 46 r5).bind fun r6 =>
  let u4 := dropWsCount r6
  let d2 := takeDigits u4.2
  if d2.1 = [] then none else
  some (3 + u1.1 + 1 + u2.1 + d1.1.length + u3.1 + 2 + u4.1 + d2.1.length,
        (digitsToNat d1.1, digitsToNat d2.1))

/-- Match a (lower-case) literal case-insensitively; return the rest of the input. -/
def matchLitCI : Str → Str → Option Str
  | [], s => some s
  | _ :: _, [] => none
  | p :: ps, c :: cs => if p == lowerCh c then matchLitCI ps cs else none

inductive QField where
  | title | artist | album | key | bpm
deriving DecidableEq

/-- The ordered alternation `(title|artist|album|key|bpm)`; at most one branch can
match at a given position, so first-match-wins needs no backtracking. -/
def fieldAlt (s : Str) : Option (QField × Nat × Str) :=
  match matchLitCI (strOf "title") s with
  | some r => some (.title, 5, r)
  | none =>
    match matchLitCI (strOf "artist") s with
    | some r => some (.artist, 6, r)
    | none =>
      match matchLitCI (strOf "album") s with
      | some r => some (.album, 5, r)
      | none =>
        match matchLitCI (strOf "key") s with
        | some r => some (.key, 3, r)
        | none =>
          match matchLitCI (strOf "bpm") s with
          | some r => some (.bpm, 3, r)
          | none => none

/-- Match `\b(title|artist|album|key|bpm)\s*:\s*([^\s][^']*|'[^']*')` at the head
of `s`.  The first value alternative `[^\s][^']*` applies whenever the character
after the colon (and optional whitespace) is a non-whitespace character; since an
apostrophe is not whitespace, the second alternative `'[^']*'` is unreachable. -/
def matchPair (prev : Option Nat) (s : Str) : Option (Nat × (QField × Str)) :=
  if !boundaryOk prev then none else
  match fieldAlt s with
  | none => none
  | some (f, nl, r0) =>
    let u1 := dropWsCount r0
    (chEq 58 u1.2).bind fun r2 =>
    let u2 := dropWsCount r2
    match u2.2 with
    | [] => none
    | c :: cs =>
      if !isWsCh c then
        let v := takeNotApos cs
        some (nl + u1.1 + 1 + u2.1 + 1 + v.1.length, (f, c :: v.1))
      else none

/-- Match `'([^']+)'` at the head of `s`; the token is the quoted group. -/
def matchPhrase (_prev : Option Nat) (s : Str) : Option (Nat × Str) :=
  match s with
  | [] => none
  | c :: r =>
    if c == 39 then
      let v := takeNotApos r
      if v.1 = [] then none else
      match v.2 with
      | [] => none
      | c2 :: _ => if c2 == 39 then some (v.1.length + 2, v.1) else none
    else none

/-- Leftmost match (`re.search`): try the matcher at every position. -/
def findFirstAux {τ : Type} (m : Option Nat → Str → Option (Nat × τ)) :
    Option Nat → Str → Option τ
  | _, [] => none
  | prev, c :: cs =>
    match m prev (c :: cs) with
    | some (_, t) => some t
    | none => findFirstAux m (some c) cs

def findFirst {τ : Type} (m : Option Nat → Str → Option (Nat × τ)) (s : Str) : Option τ :=
  findFirstAux m none s

/-- The character preceding the scan position after consuming `k ≥ 1` characters
of `c :: cs` (the `\b` context is checked against the original string). -/
def prevAt (c : Nat) (cs : Str) (k : Nat) : Option Nat :=
  some ((c :: cs).getD (k - 1) c)

/-- `re.sub(pattern, "", s)`: drop every non-overlapping match, left to right. -/
def removeAllAux {τ : Type} (m : Option Nat → Str → Option (Nat × τ)) :
    Nat → Option Nat → Str → Str
  | 0, _, s => s
  | _ + 1, _, [] => []
  | f + 1, prev, c :: cs =>
    match m prev (c :: cs) with
    | some (k, _) => removeAllAux m f (prevAt c cs k) (List.drop (k - 1) cs)
    | none => c :: removeAllAux m f (some c) cs

def removeAll {τ : Type} (m : Option Nat → Str → Option (Nat × τ)) (s : Str) : Str :=
  removeAllAux m s.length none s

/-- `re.findall`: tokens of every non-overlapping match, left to right. -/
def findAllAux {τ : Type} (m : Option Nat → Str → Option (Nat × τ)) :
    Nat → Option Nat → Str → List τ
  | 0, _, _ => []
  | _ + 1, _, [] => []
  | f + 1, prev, c :: cs =>
    match m prev (c :: cs) with
    | some (k, t) => t :: findAllAux m f (prevAt c cs k) (List.drop (k - 1) cs)
    | none => findAllAux m f (some c) cs

def findAll {τ : Type} (m : Option Nat → Str → Option (Nat × τ)) (s : Str) : List τ :=
  findAllAux m s.length none s

structure Filters where
  title : Option Str := none
  artist : Option Str := none
  album : Option Str := none
  key : Option Str := none
  bpm : Option Str := none
  bpm_range : Option (Nat × Nat) := none
deriving DecidableEq

/-- `v[1:-1]` when `v.startswith("'") and v.endswith("'")`. -/
def pyUnquote (v : Str) : Str :=
  if v.head? = some 39 ∧ v.getLast? = some 39 then (v.drop 1).dropLast else v

/-- One `filters[f.lower()] = norm(v) if f.lower() != "bpm" else v` assignment
(after `v.strip()` and quote stripping); later pairs overwrite earlier ones. -/
def applyPair (fl : Filters) (p : QField × Str) : Filters :=
  let v := pyUnquote (pyStrip p.2)
  match p.1 with
  | .title => { fl with title := some (norm v) }
  | .artist => { fl with artist := some (norm v) }
  | .album => { fl with album := some (norm v) }
  | .key => { fl with key := some (norm v) }
  | .bpm => { fl with bpm := some v }

/-- `SongIndex.parse_query`: bpm range, then field:value pairs, then the first
quoted phrase, then the normalized remainder as free text. -/
def parse_query (q : Str) : Str × Option Str × Filters :=
  let rm := findFirst matchRange q
  let fl0 : Filters :=
    match rm with
    | some lohi => { bpm_range := some lohi }
    | none => {}
  let q1 := match rm with
    | some _ => removeAll matchRange q
    | none => q
  let prs := findAll matchPair q1
  let fl1 := prs.foldl applyPair fl0
  let q2 := if prs = [] then q1 else removeAll matchPair q1
  let pm := findFirst matchPhrase q2
  let phrase : Option Str :=
    match pm with
    | some g => some (norm g)
    | none => none
  let q3 := match pm with
    | some _ => removeAll matchPhrase q2
    | none => q2
  (norm q3, phrase, fl1)

/-! ## Filtering, scoring, ranking -/

/-- The per-candidate test of `filter_candidates` (checks in source order; a
phrase that normalized to the empty string is falsy in Python and is skipped). -/
def candOk (phrase : Option Str) (fl : Filters) (n : NormRec) : Bool :=
  (match phrase with
   | some p => if p = [] then true else hasSub p n.title_n || hasSub p n.artist_n
   | none => true) &&
  (match fl.artist with | some v => hasSub v n.artist_n | none => true) &&
  (match fl.title with | some v => hasSub v n.title_n | none => true) &&
  (match fl.album with | some v => hasSub v n.album_n | none => true) &&
  (match fl.key with
   | some v => hasSub (replaceAll minPat (strOf "m") (replaceAll majPat [] v)) n.key_n
   | none => true) &&
  (match fl.bpm with | some v => v == n.bpm_n | none => true) &&
  (match fl.bpm_range with
   | some lohi =>
     (match to_int n.bpm_n with
      | some b => decide ((lohi.1 : Int) ≤ b) && decide (b ≤ (lohi.2 : Int))
      | none => false)
   | none => true)

/-- `SongIndex.filter_candidates`: indices of the records passing all filters. -/
def SongIndex.filter_candidates (ix : SongIndex) (phrase : Option Str) (fl : Filters) :
    List Nat :=
  ix.norms.enum.filterMap (fun p => if candOk phrase fl p.2 then some p.1 else none)

/-- `SongIndex.score`: weighted per-field similarity
`0.55 * title + 0.4 * artist + 0.05 * album`, empty fields scoring 0. -/
def SongIndex.score (wr : Str → Str → ℚ) (ix : SongIndex) (q : Str) (i : Nat) : ℚ :=
  let n := ix.norms.getD i dNorm
  let st : ℚ := if n.title_n = [] then 0 else wr q n.title_n
  let sa : ℚ := if n.artist_n = [] then 0 else wr q n.artist_n
  let sal : ℚ := if n.album_n = [] then 0 else wr q n.album_n
  0.55 * st + 0.4 * sa + 0.05 * sal

/-- Stable insertion into a descending-by-score list: an element inserted from the
left goes before every element of not-larger score. -/
def insDesc (a : Nat × ℚ) : List (Nat × ℚ) → List (Nat × ℚ)
  | [] => [a]
  | b :: t => if b.2 ≤ a.2 then a :: b :: t else b :: insDesc a t

/-- Python's `list.sort(key=lambda x: x[1], reverse=True)` is a stable descending
sort; a stable sort's output is unique, so insertion sort models it exactly. -/
def pySortDesc : List (Nat × ℚ) → List (Nat × ℚ)
  | [] => []
  | a :: t => insDesc a (pySortDesc t)

/-- Modelled from the spec: `rapidfuzz.process.extract(q, texts, scorer=fuzz.WRatio,
limit=k)` is external to the repository; per §4.4 of the spec it shortlists the top
`k` indices by the bounded similarity score against the coarse texts, ties broken
by original index order (ascending). -/
def extractShortlist (wr : Str → Str → ℚ) (q : Str) (texts : List Str) (k : Nat) :
    List Nat :=
  ((pySortDesc (texts.enum.map (fun p => (p.1, wr q p.2)))).take k).map (fun p => p.1)

/-- Steps 1–3 of `SongIndex.search` before sorting: candidate generation, exact
filtering, weighted rescoring with the threshold test. -/
def SongIndex.search_pre (wr : Str → Str → ℚ) (ix : SongIndex) (q : Str)
    (limit : Nat) (threshold : ℚ) : List (Nat × ℚ) :=
  let pq := parse_query q
  let qf := pq.1
  let cand0 := if qf = [] then List.range ix.items.length
               else extractShortlist wr qf ix.search_texts (max 100 (limit * 10))
  let fset := ix.filter_candidates pq.2.1 pq.2.2
  let cand := cand0.filter (fun i => fset.contains i)
  cand.filterMap (fun i =>
    let s := ix.score wr (if qf = [] then (ix.norms.getD i dNorm).title_n else qf) i
    if threshold ≤ s then some (i, s) else none)

/-- `scored.sort(key=lambda x: x[1], reverse=True)`. -/
def SongIndex.search_scored (wr : Str → Str → ℚ) (ix : SongIndex) (q : Str)
    (limit : Nat) (threshold : ℚ) : List (Nat × ℚ) :=
  pySortDesc (ix.search_pre wr q limit threshold)

/-- Round half to even (Python's `round`) on an exact rational. -/
def roundHalfEven (x : ℚ) : ℤ :=
  if x - ⌊x⌋ < 1/2 then ⌊x⌋
  else if (1:ℚ)/2 < x - ⌊x⌋ then ⌊x⌋ + 1
  else if ⌊x⌋ % 2 = 0 then ⌊x⌋ else ⌊x⌋ + 1

/-- Python `round(x, 2)` on an exact rational. -/
def round2 (x : ℚ) : ℚ := (roundHalfEven (x * 100) : ℚ) / 100

/-- `SongIndex.search`: sort by score descending (stable), truncate to `limit`,
return `(record, round(score, 2))` pairs. -/
def SongIndex.search (wr : Str → Str → ℚ) (ix : SongIndex) (q : Str)
    (limit : Nat) (threshold : ℚ) : List (Song × ℚ) :=
  ((ix.search_scored wr q limit threshold).take limit).map
    (fun p => (ix.items.getD p.1 dSong, round2 p.2))

/-! ## The convenience call `search_index` -/

inductive SIErr where
  | notFound : Str → SIErr
  | loadFailed : Str → SIErr
deriving DecidableEq

structure DictRec where
  score : ℚ
  title : Str
  artist : Str
  album : Str
  key : Str
  bpm : Str
  path : Str
deriving DecidableEq

inductive SIOut where
  | tuples : List (Song × ℚ) → SIOut
  | dicts : List DictRec → SIOut
deriving DecidableEq

def emptyOut (asDict : Bool) : SIOut := if asDict then .dicts [] else .tuples []

def toDictRec (p : Song × ℚ) : DictRec :=
  { score := p.2, title := p.1.title, artist := p.1.artist, album := p.1.album,
    key := p.1.key, bpm := p.1.bpm, path := p.1.path }

/-- `search_index`: blank-query guard, file read (the file system is a parameter
`fs`), index load, core search on the stripped query with `max(1, limit)`. -/
def search_index (wr : Str → Str → ℚ) (fs : Str → Option Jv) (query : Str)
    (limit : Int) (threshold : ℚ) (asDict : Bool) (indexPath : Str) :
    Except SIErr SIOut :=
  if pyStrip query = [] then .ok (emptyOut asDict)
  else
    match fs indexPath with
    | none => .error (.notFound indexPath)
    | some j =>
      match SongIndex.from_bytes j with
      | none => .error (.loadFailed indexPath)
      | some ix =>
        let results := ix.search wr (pyStrip query) (max 1 limit).toNat threshold
        if results = [] then .ok (emptyOut asDict)
        else .ok (if asDict then .dicts (results.map toDictRec) else .tuples results)

/-! # Proof development -/

/-! ## Canonical (normalized) text -/

/-- A character that can appear in `norm` output: lower-case fixed point, kept by
the character class, and the only whitespace allowed is the plain space. -/
def canonCh (c : Nat) : Prop := lowerCh c = c ∧ isKeptCh c = true ∧ (isWsCh c = true → c = 32)

instance (c : Nat) : Decidable (canonCh c) := by
  unfold canonCh
  infer_instance

/-- No two adjacent whitespace characters. -/
def noDblWs (u : Str) : Prop :=
  List.Chain' (fun a b => ¬(isWsCh a = true ∧ isWsCh b = true)) u

/-- Fixed points of `norm`: canonical characters, no double whitespace, and no
leading or trailing whitespace. -/
def Canon (u : Str) : Prop :=
  (∀ c ∈ u, canonCh c) ∧ noDblWs u ∧
  (∀ c, u.head? = some c → isWsCh c = false) ∧
  (∀ c, u.getLast? = some c → isWsCh c = false)

/-- Lower-case ASCII letter. -/
def isLowerAlpha (c : Nat) : Bool := decide (97 ≤ c) && decide (c ≤ 122)

theorem lowerCh_idem (c : Nat) : lowerCh (lowerCh c) = lowerCh c := by
  by_cases h : 65 ≤ c ∧ c ≤ 90
  · simp only [lowerCh, if_pos h]
    have h2 : ¬(65 ≤ c + 32 ∧ c + 32 ≤ 90) := by
      rintro ⟨h1, h2⟩
      omega
    simp only [if_neg h2]
  · simp only [lowerCh, if_neg h]

theorem canonCh_32 : canonCh 32 := by
  refine ⟨by decide, by decide, fun _ => rfl⟩

theorem mem_collapseWs {c : Nat} : ∀ {t : Str}, c ∈ collapseWs t →
    c = 32 ∨ (c ∈ t ∧ isWsCh c = false)
  | [], h => by simp [collapseWs] at h
  | [a], h => by
    simp only [collapseWs, List.mem_singleton] at h
    by_cases hw : isWsCh a
    · left; simp [hw] at h; exact h
    · right; subst_eqs; simp_all [hw]
  | a :: b :: t, h => by
    simp only [collapseWs] at h
    by_cases hab : (isWsCh a && isWsCh b) = true
    · rw [if_pos hab] at h
      rcases mem_collapseWs h with h1 | ⟨h2, h3⟩
      · exact Or.inl h1
      · exact Or.inr ⟨List.mem_cons_of_mem _ h2, h3⟩
    · rw [if_neg hab] at h
      rcases List.mem_cons.mp h with h1 | h1
      · by_cases hw : isWsCh a
        · left; simpa [hw] using h1
        · right; subst h1; simp_all [hw]
      · rcases mem_collapseWs h1 with h2 | ⟨h2, h3⟩
        · exact Or.inl h2
        · exact Or.inr ⟨List.mem_cons_of_mem _ h2, h3⟩

theorem collapseWs_cons_nonws {b : Nat} (hb : isWsCh b = false) (t : Str) :
    collapseWs (b :: t) = b :: collapseWs t := by
  cases t with
  | nil => simp [collapseWs, hb]
  | cons c t' => simp [collapseWs, hb]

theorem head?_collapseWs : ∀ (b : Nat) (t : Str),
    (collapseWs (b :: t)).head? = some (if isWsCh b then 32 else b)
  | b, [] => by simp [collapseWs]
  | b, c :: t => by
    by_cases hb : isWsCh b
    · by_cases hc : isWsCh c
      · have ih := head?_collapseWs c t
        simp only [collapseWs, hb, hc, Bool.and_self, if_true]
        rw [ih]
        simp [hb, hc]
      · simp [collapseWs, hb, hc]
    · simp [collapseWs, hb]

theorem chain'_collapseWs : ∀ t : Str, noDblWs (collapseWs t)
  | [] => List.chain'_nil
  | [c] => List.chain'_singleton _
  | a :: b :: t => by
    have ih := chain'_collapseWs (b :: t)
    by_cases hab : (isWsCh a && isWsCh b) = true
    · unfold collapseWs
      rw [if_pos hab]
      exact ih
    · unfold collapseWs noDblWs
      rw [if_neg hab, List.chain'_cons']
      refine ⟨?_, ih⟩
      intro y hy
      rw [head?_collapseWs b t] at hy
      have hy' : (if isWsCh b then 32 else b) = y := by simpa using hy
      have h2 : ¬(isWsCh a = true ∧ isWsCh b = true) := by
        intro hcon
        exact hab (by simp [hcon.1, hcon.2])
      rcases not_and_or.mp h2 with ha | hb'
      · have ha' : isWsCh a = false := by simpa using ha
        simp [ha']
      · have hb2 : isWsCh b = false := by simpa using hb'
        rw [if_neg (by simp [hb2])] at hy'
        intro hcon
        rw [← hy'] at hcon
        simp [hb2] at hcon

theorem collapseWs_eq_self : ∀ {u : Str}, (∀ c ∈ u, isWsCh c = true → c = 32) →
    noDblWs u → collapseWs u = u
  | [], _, _ => rfl
  | [c], h, _ => by
    by_cases hw : isWsCh c
    · have := h c (by simp) hw
      simp [collapseWs, hw, this]
    · simp [collapseWs, hw]
  | a :: b :: t, h, hch => by
    unfold noDblWs at hch
    rw [List.chain'_cons] at hch
    have hab : ¬(isWsCh a && isWsCh b) = true := by
      intro hcon
      rw [Bool.and_eq_true] at hcon
      exact hch.1 hcon
    have htail : collapseWs (b :: t) = b :: t :=
      collapseWs_eq_self (fun c hc => h c (List.mem_cons_of_mem _ hc)) hch.2
    unfold collapseWs
    rw [if_neg hab, htail]
    by_cases hw : isWsCh a
    · have ha32 := h a (by simp) hw
      subst ha32
      simp
    · simp [hw]

theorem head?_dropWhile {p : Nat → Bool} : ∀ {l : Str} {c : Nat},
    (l.dropWhile p).head? = some c → p c = false
  | [], c, h => by simp [List.dropWhile] at h
  | a :: t, c, h => by
    rw [List.dropWhile_cons] at h
    by_cases hp : p a
    · rw [if_pos hp] at h
      exact head?_dropWhile h
    · rw [if_neg hp] at h
      simp only [List.head?_cons, Option.some_inj] at h
      subst h
      simpa using hp

theorem dropWhile_eq_self {p : Nat → Bool} {l : Str}
    (h : ∀ c, l.head? = some c → p c = false) : l.dropWhile p = l := by
  cases l with
  | nil => rfl
  | cons a t =>
    rw [List.dropWhile_cons, if_neg]
    simp [h a rfl]

theorem pyStrip_decomp (s : Str) : ∃ t u, s = t ++ pyStrip s ++ u := by
  refine ⟨s.takeWhile (fun c => isWsCh c),
    (((s.dropWhile (fun c => isWsCh c)).reverse.takeWhile (fun c => isWsCh c))).reverse, ?_⟩
  unfold pyStrip
  conv_lhs => rw [← List.takeWhile_append_dropWhile (p := fun c => isWsCh c) (l := s)]
  rw [List.append_assoc]
  congr 1
  conv_lhs => rw [← List.reverse_reverse (s.dropWhile (fun c => isWsCh c))]
  conv_lhs =>
    rw [← List.takeWhile_append_dropWhile (p := fun c => isWsCh c)
      (l := (s.dropWhile (fun c => isWsCh c)).reverse)]
  rw [List.reverse_append]

theorem mem_pyStrip {c : Nat} {s : Str} (h : c ∈ pyStrip s) : c ∈ s := by
  obtain ⟨t, u, hs⟩ := pyStrip_decomp s
  rw [hs]
  simp only [List.mem_append]
  exact Or.inl (Or.inr h)

theorem chain'_of_append_left {α : Type} {R : α → α → Prop} {l m : List α}
    (h : List.Chain' R (l ++ m)) : List.Chain' R l :=
  (List.chain'_append.mp h).1

theorem chain'_of_append_right {α : Type} {R : α → α → Prop} {l m : List α}
    (h : List.Chain' R (l ++ m)) : List.Chain' R m :=
  (List.chain'_append.mp h).2.1

theorem chain'_pyStrip {R : Nat → Nat → Prop} {s : Str} (h : List.Chain' R s) :
    List.Chain' R (pyStrip s) := by
  obtain ⟨t, u, hs⟩ := pyStrip_decomp s
  rw [hs] at h
  exact chain'_of_append_right (chain'_of_append_left h)

theorem getLast?_of_suffixOf {α : Type} {x y : List α} (h : x <:+ y) (hx : x ≠ []) :
    x.getLast? = y.getLast? := by
  obtain ⟨pre, rfl⟩ := h
  rw [List.getLast?_append]
  cases hl : x.getLast? with
  | none => exact absurd (by simpa using hl) hx
  | some a => rfl

theorem head?_pyStrip {s : Str} {c : Nat} (h : (pyStrip s).head? = some c) :
    isWsCh c = false := by
  unfold pyStrip at h
  rw [List.head?_reverse] at h
  have hx : ((s.dropWhile (fun c => isWsCh c)).reverse.dropWhile (fun c => isWsCh c)) ≠ [] := by
    intro hcon
    rw [hcon] at h
    simp at h
  rw [getLast?_of_suffixOf (List.dropWhile_suffix _) hx, List.getLast?_reverse] at h
  exact head?_dropWhile h

theorem getLast?_pyStrip {s : Str} {c : Nat} (h : (pyStrip s).getLast? = some c) :
    isWsCh c = false := by
  unfold pyStrip at h
  rw [List.getLast?_reverse] at h
  exact head?_dropWhile h

theorem pyStrip_eq_self {s : Str} (h1 : ∀ c, s.head? = some c → isWsCh c = false)
    (h2 : ∀ c, s.getLast? = some c → isWsCh c = false) : pyStrip s = s := by
  unfold pyStrip
  rw [dropWhile_eq_self h1, dropWhile_eq_self (fun c hc => ?_), List.reverse_reverse]
  rw [List.head?_reverse] at hc
  exact h2 c hc

theorem map_id_of_mem {f : Nat → Nat} : ∀ {l : Str}, (∀ c ∈ l, f c = c) → l.map f = l
  | [], _ => rfl
  | a :: t, h => by
    rw [List.map_cons, h a (by simp), map_id_of_mem (fun c hc => h c (List.mem_cons_of_mem _ hc))]

theorem norm_def (s : Str) :
    norm s = pyStrip (collapseWs ((s.map lowerCh).map (fun c => if isKeptCh c then c else 32))) :=
  rfl

theorem canon_norm (s : Str) : Canon (norm s) := by
  rw [norm_def]
  set m2 := (s.map lowerCh).map (fun c => if isKeptCh c then c else 32) with hm2
  have hm2c : ∀ c ∈ m2, lowerCh c = c ∧ isKeptCh c = true := by
    intro c hc
    rw [hm2] at hc
    rcases List.mem_map.mp hc with ⟨d, _, rfl⟩
    by_cases hk : isKeptCh d
    · rcases List.mem_map.mp (by assumption : d ∈ s.map lowerCh) with ⟨e, _, rfl⟩
      simp only [if_pos hk]
      exact ⟨lowerCh_idem e, hk⟩
    · simp only [if_neg hk]
      exact ⟨rfl, by decide⟩
  refine ⟨?_, ?_, ?_, ?_⟩
  · intro c hc
    have hc' := mem_pyStrip hc
    rcases mem_collapseWs hc' with rfl | ⟨hmem, hnws⟩
    · exact canonCh_32
    · rcases hm2c c hmem with ⟨h1, h2⟩
      exact ⟨h1, h2, fun hws => absurd hws (by simp [hnws])⟩
  · exact chain'_pyStrip (chain'_collapseWs m2)
  · exact fun c h => head?_pyStrip h
  · exact fun c h => getLast?_pyStrip h

theorem canon_fix {u : Str} (h : Canon u) : norm u = u := by
  obtain ⟨hc, hch, hh, hl⟩ := h
  rw [norm_def]
  have h1 : u.map lowerCh = u := map_id_of_mem (fun c hcu => (hc c hcu).1)
  have h2 : u.map (fun c => if isKeptCh c then c else 32) = u :=
    map_id_of_mem (fun c hcu => by rw [if_pos ((hc c hcu).2.1)])
  rw [h1, h2, collapseWs_eq_self (fun c hcu hws => (hc c hcu).2.2 hws) hch]
  exact pyStrip_eq_self hh hl

/-- `normalize` is idempotent. -/
theorem norm_idem (s : Str) : norm (norm s) = norm s := canon_fix (canon_norm s)

/-! ## Occurrence and replacement lemmas -/

theorem leadsWith_refl : ∀ p : Str, leadsWith p p = true
  | [] => rfl
  | c :: cs => by simp [leadsWith, leadsWith_refl cs]

theorem leadsWith_iff_prefixOf : ∀ {p s : Str}, leadsWith p s = true ↔ p <+: s
  | [], s => by simp [leadsWith]
  | c :: cs, [] => by simp [leadsWith]
  | c :: cs, d :: ds => by
    rw [leadsWith, Bool.and_eq_true, beq_iff_eq, List.cons_prefix_cons]
    exact and_congr Iff.rfl leadsWith_iff_prefixOf

theorem hasSub_false_elim {p : Str} {t1 t2 s : Str} (h : hasSub p s = false)
    (hs : s = t1 ++ t2) : leadsWith p t2 = false := by
  subst hs
  induction t1 with
  | nil =>
    cases t2 with
    | nil => exact h
    | cons c cs =>
      rw [List.nil_append, hasSub, Bool.or_eq_false_iff] at h
      exact h.1
  | cons a t1' ih =>
    rw [List.cons_append, hasSub, Bool.or_eq_false_iff] at h
    exact ih h.2

theorem hasSub_of_decomp {p : Str} {t1 t2 s : Str} (hs : s = t1 ++ t2)
    (h : leadsWith p t2 = true) : hasSub p s = true := by
  subst hs
  induction t1 with
  | nil =>
    cases t2 with
    | nil => exact h
    | cons c cs => simp [hasSub, h]
  | cons a t1' ih =>
    rw [List.cons_append, hasSub, Bool.or_eq_true]
    exact Or.inr ih

theorem replaceAllAux_nil (p r : Str) : ∀ f, replaceAllAux p r f [] = []
  | 0 => rfl
  | _ + 1 => rfl

theorem replaceAllAux_no_occur {p r : Str} : ∀ (f : Nat) {s : Str},
    hasSub p s = false → replaceAllAux p r f s = s
  | 0, s, _ => rfl
  | _ + 1, [], _ => rfl
  | f + 1, c :: cs, h => by
    have h' := h
    rw [hasSub, Bool.or_eq_false_iff] at h'
    rw [replaceAllAux, if_neg (by simp [h'.1]), replaceAllAux_no_occur f h'.2]

/-- A string with no occurrence of the pattern is unchanged by `replaceAll`. -/
theorem replaceAll_no_occur {p r s : Str} (h : hasSub p s = false) :
    replaceAll p r s = s := replaceAllAux_no_occur _ h

theorem replaceAllAux_append_pat {p r : Str} (hp : p ≠ []) :
    ∀ (t : Str) (f : Nat), t.length < f →
      (∀ t1 t2, t = t1 ++ t2 → t2 ≠ [] → leadsWith p (t2 ++ p) = false) →
      replaceAllAux p r f (t ++ p) = t ++ r
  | [], f, hf, _ => by
    cases f with
    | zero => omega
    | succ f' =>
      cases hpc : p with
      | nil => exact absurd hpc hp
      | cons a ps =>
        subst hpc
        simp only [List.nil_append]
        rw [replaceAllAux, if_pos (leadsWith_refl _)]
        have hlen : (a :: ps).length - 1 = ps.length := by simp
        rw [hlen, List.drop_length, replaceAllAux_nil, List.append_nil]
  | a :: t', f, hf, h => by
    cases f with
    | zero => omega
    | succ f' =>
      have hne : leadsWith p (a :: (t' ++ p)) = false := by
        have h0 := h [] (a :: t') rfl (by simp)
        simpa using h0
      rw [List.cons_append, replaceAllAux, if_neg (by simp [hne])]
      rw [replaceAllAux_append_pat hp t' f' (by simpa using hf)
        (fun t1 t2 ht ht2 => h (a :: t1) t2 (by rw [ht, List.cons_append]) ht2)]
      rw [List.cons_append]

/-- When the pattern occurs exactly once, as a suffix, `replaceAll` rewrites just
that suffix. -/
theorem replaceAll_append_pat {p r t : Str} (hp : p ≠ [])
    (h : ∀ t1 t2, t = t1 ++ t2 → t2 ≠ [] → leadsWith p (t2 ++ p) = false) :
    replaceAll p r (t ++ p) = t ++ r := by
  unfold replaceAll
  refine replaceAllAux_append_pat hp t _ ?_ h
  rw [List.length_append]
  have : 0 < p.length := List.length_pos.mpr hp
  omega

/-- From decidable no-occurrence in `t ++ p.dropLast` to the positional condition
of `replaceAll_append_pat`: any earlier occurrence of `p` inside `t ++ p` would
become an occurrence of `p` inside `t ++ p.dropLast`. -/
theorem noEarly_of_hasSub_dropLast {p t : Str} (hp : p ≠ [])
    (h : hasSub p (t ++ p.dropLast) = false) :
    ∀ t1 t2, t = t1 ++ t2 → t2 ≠ [] → leadsWith p (t2 ++ p) = false := by
  intro t1 t2 ht ht2
  by_contra hcon
  rw [Bool.not_eq_false] at hcon
  have hpre : p <+: t2 ++ p := by
    rw [← leadsWith_iff_prefixOf]
    exact hcon
  have hlp : 0 < p.length := List.length_pos.mpr hp
  have hlt : 0 < t2.length := List.length_pos.mpr ht2
  have htake : (t2 ++ p).take p.length = (t2 ++ p.dropLast).take p.length := by
    have hsplit : t2 ++ p = (t2 ++ p.dropLast) ++ [p.getLast hp] := by
      rw [List.append_assoc, List.dropLast_append_getLast hp]
    rw [hsplit, List.take_append_of_le_length]
    rw [List.length_append, List.length_dropLast]
    omega
  have hpre2 : p <+: t2 ++ p.dropLast := by
    rw [List.prefix_iff_eq_take] at hpre ⊢
    conv_lhs => rw [hpre, htake]
  have hocc : hasSub p (t ++ p.dropLast) = true := by
    refine @hasSub_of_decomp p t1 (t2 ++ p.dropLast) _ ?_ ?_
    · rw [ht, List.append_assoc]
    · rw [leadsWith_iff_prefixOf]
      exact hpre2
  rw [hocc] at h
  exact absurd h (by simp)

theorem mem_of_getLast?_some {α : Type} : ∀ {l : List α} {c : α}, l.getLast? = some c → c ∈ l
  | [], c, h => by simp at h
  | [a], c, h => by
    simp only [List.getLast?_singleton, Option.some_inj] at h
    simp [h]
  | a :: b :: t, c, h => by
    rw [List.getLast?_cons_cons] at h
    exact List.mem_cons_of_mem _ (mem_of_getLast?_some h)

theorem chain'_of_all_nonws : ∀ {l : Str}, (∀ c ∈ l, isWsCh c = false) → noDblWs l
  | [], _ => List.chain'_nil
  | [_], _ => List.chain'_singleton _
  | a :: b :: t, h => by
    unfold noDblWs
    rw [List.chain'_cons]
    refine ⟨fun hcon => ?_, chain'_of_all_nonws (fun c hc => h c (List.mem_cons_of_mem _ hc))⟩
    rw [h a (by simp)] at hcon
    exact absurd hcon.1 (by simp)

theorem rep_nil_head {p' r : Str} : ∀ (f : Nat) {c : Nat} {cs : Str},
    replaceAllAux (32 :: p') r f (c :: cs) = [] → c = 32
  | 0, c, cs, h => by
    rw [replaceAllAux] at h
    simp at h
  | f + 1, c, cs, h => by
    rw [replaceAllAux] at h
    by_cases hm : leadsWith (32 :: p') (c :: cs) = true
    · rw [leadsWith, Bool.and_eq_true, beq_iff_eq] at hm
      exact hm.1.symm
    · rw [if_neg hm] at h
      simp at h

theorem canon_replaceAllAux {p' r : Str}
    (hrw : ∀ c ∈ r, isWsCh c = false) (hrc : ∀ c ∈ r, canonCh c) :
    ∀ (f : Nat) (s : Str), (∀ c ∈ s, canonCh c) → noDblWs s →
      (∀ c ∈ replaceAllAux (32 :: p') r f s, canonCh c) ∧
      noDblWs (replaceAllAux (32 :: p') r f s) ∧
      (∀ c, (replaceAllAux (32 :: p') r f s).head? = some c → isWsCh c = true →
        ∃ d, s.head? = some d ∧ isWsCh d = true) ∧
      (∀ c, (replaceAllAux (32 :: p') r f s).getLast? = some c → isWsCh c = true →
        ∃ d, s.getLast? = some d ∧ isWsCh d = true) := by
  intro f
  induction f with
  | zero =>
    intro s hs hch
    exact ⟨hs, hch, fun c h hw => ⟨c, h, hw⟩, fun c h hw => ⟨c, h, hw⟩⟩
  | succ f ih =>
    intro s hs hch
    cases s with
    | nil =>
      rw [replaceAllAux]
      exact ⟨by simp, List.chain'_nil, by simp, by simp⟩
    | cons c cs =>
      rw [replaceAllAux]
      by_cases hm : leadsWith (32 :: p') (c :: cs) = true
      · rw [if_pos hm]
        have hc32 : c = 32 := by
          rw [leadsWith, Bool.and_eq_true, beq_iff_eq] at hm
          exact hm.1.symm
        have hs'suf : List.drop ((32 :: p').length - 1) cs <:+ c :: cs :=
          (List.drop_suffix _ _).trans ⟨[c], rfl⟩
        have hs'c : ∀ x ∈ List.drop ((32 :: p').length - 1) cs, canonCh x :=
          fun x hx => hs x (hs'suf.subset hx)
        have hs'ch : noDblWs (List.drop ((32 :: p').length - 1) cs) :=
          List.Chain'.suffix hch hs'suf
        obtain ⟨ih1, ih2, ih3, ih4⟩ := ih (List.drop ((32 :: p').length - 1) cs) hs'c hs'ch
        refine ⟨?_, ?_, ?_, ?_⟩
        · intro x hx
          rcases List.mem_append.mp hx with hx | hx
          · exact hrc x hx
          · exact ih1 x hx
        · unfold noDblWs
          rw [List.chain'_append]
          refine ⟨chain'_of_all_nonws hrw, ih2, ?_⟩
          intro x hx y _ hcon
          have hxr : x ∈ r := mem_of_getLast?_some (Option.mem_def.mp hx)
          rw [hrw x hxr] at hcon
          exact absurd hcon.1 (by simp)
        · intro x _ _
          exact ⟨32, by simp [hc32], by decide⟩
        · intro x hx hw
          rw [List.getLast?_append] at hx
          cases ho : (replaceAllAux (32 :: p') r f (List.drop ((32 :: p').length - 1) cs)).getLast? with
          | some y =>
            rw [ho] at hx
            simp only [Option.or_some, Option.some_inj] at hx
            rw [← hx] at hw
            obtain ⟨d, hd, hdw⟩ := ih4 y ho hw
            have hne : List.drop ((32 :: p').length - 1) cs ≠ [] := by
              intro hcon
              rw [hcon] at hd
              simp at hd
            refine ⟨d, ?_, hdw⟩
            rw [← getLast?_of_suffixOf hs'suf hne]
            exact hd
          | none =>
            rw [ho] at hx
            simp only [Option.none_or] at hx
            have hxr : x ∈ r := mem_of_getLast?_some hx
            rw [hrw x hxr] at hw
            exact absurd hw (by simp)
      · rw [if_neg hm]
        have hcsc : ∀ x ∈ cs, canonCh x := fun x hx => hs x (List.mem_cons_of_mem _ hx)
        have hcsch : noDblWs cs := List.Chain'.tail hch
        obtain ⟨ih1, ih2, ih3, ih4⟩ := ih cs hcsc hcsch
        refine ⟨?_, ?_, ?_, ?_⟩
        · intro x hx
          rcases List.mem_cons.mp hx with rfl | hx
          · exact hs x (by simp)
          · exact ih1 x hx
        · unfold noDblWs
          rw [List.chain'_cons']
          refine ⟨?_, ih2⟩
          intro y hy hcon
          obtain ⟨d, hd, hdw⟩ := ih3 y (Option.mem_def.mp hy) hcon.2
          unfold noDblWs at hch
          rw [List.chain'_cons'] at hch
          exact hch.1 d (Option.mem_def.mpr hd) ⟨hcon.1, hdw⟩
        · intro x hx hw
          rw [List.head?_cons, Option.some_inj] at hx
          exact ⟨c, rfl, by rw [hx]; exact hw⟩
        · intro x hx hw
          cases ho : replaceAllAux (32 :: p') r f cs with
          | nil =>
            rw [ho] at hx
            simp only [List.getLast?_singleton, Option.some_inj] at hx
            cases cs with
            | nil => exact ⟨x, by simp [hx], hw⟩
            | cons d ds =>
              have hd32 : d = 32 := rep_nil_head f ho
              unfold noDblWs at hch
              rw [List.chain'_cons'] at hch
              have hcw : isWsCh c = true := by rw [hx]; exact hw
              exact absurd ⟨hcw, by rw [hd32]; decide⟩ (hch.1 d (by simp))
          | cons z zs =>
            rw [ho, List.getLast?_cons_cons] at hx
            rw [ho] at ih4
            obtain ⟨d, hd, hdw⟩ := ih4 x hx hw
            have hcsne : cs ≠ [] := by
              intro hcon
              rw [hcon] at hd
              simp at hd
            refine ⟨d, ?_, hdw⟩
            rw [← getLast?_of_suffixOf (⟨[c], rfl⟩ : cs <:+ c :: cs) hcsne]
            exact hd

/-- Canon is preserved by `replaceAll` with a pattern starting with a space and a
whitespace-free canonical replacement. -/
theorem canon_replaceAll {p' r : Str}
    (hrw : ∀ c ∈ r, isWsCh c = false) (hrc : ∀ c ∈ r, canonCh c)
    {u : Str} (hu : Canon u) : Canon (replaceAll (32 :: p') r u) := by
  obtain ⟨hc, hch, hh, hl⟩ := hu
  obtain ⟨h1, h2, h3, h4⟩ := canon_replaceAllAux hrw hrc u.length u hc hch
  refine ⟨h1, h2, ?_, ?_⟩
  · intro c hcc
    by_contra hcon
    rw [Bool.not_eq_false] at hcon
    obtain ⟨d, hd, hdw⟩ := h3 c hcc hcon
    rw [hh d hd] at hdw
    exact absurd hdw (by simp)
  · intro c hcc
    by_contra hcon
    rw [Bool.not_eq_false] at hcon
    obtain ⟨d, hd, hdw⟩ := h4 c hcc hcon
    rw [hl d hd] at hdw
    exact absurd hdw (by simp)

theorem normalize_key_def (s : Str) :
    normalize_key s = replaceAll minPat (strOf "m") (replaceAll majPat [] (norm s)) := rfl

theorem canon_normalize_key (s : Str) : Canon (normalize_key s) := by
  have hmaj : majPat = 32 :: [109, 97, 106, 111, 114] := by decide
  have hmin : minPat = 32 :: [109, 105, 110, 111, 114] := by decide
  have hm : strOf "m" = [109] := by decide
  rw [normalize_key_def, hmaj, hmin, hm]
  exact canon_replaceAll (by decide) (by decide)
    (canon_replaceAll (by simp) (by simp) (canon_norm s))

/-- C8 (counterexample): `normalize_key` is not idempotent — an occurrence of
`" major"` assembled by an earlier replacement survives one pass and is replaced
by the next. -/
theorem c8_counterexample :
    ¬(normalize_key (normalize_key (strOf "a ma majorjor b")) =
      normalize_key (strOf "a ma majorjor b")) := by decide

/-- C8 (amended): `normalize` is idempotent for every string; `normalize_key` is
idempotent for every string whose `normalize_key` image contains no residual
occurrence of `" major"` or `" minor"` (in particular every ordinary key string). -/
theorem c8_amended :
    (∀ s, norm (norm s) = norm s) ∧
    (∀ s, hasSub majPat (normalize_key s) = false →
      hasSub minPat (normalize_key s) = false →
      normalize_key (normalize_key s) = normalize_key s) := by
  refine ⟨norm_idem, fun s h1 h2 => ?_⟩
  rw [normalize_key_def (normalize_key s), canon_fix (canon_normalize_key s),
    replaceAll_no_occur h1, replaceAll_no_occur h2]

theorem c8_witness :
    hasSub majPat (normalize_key (strOf "C# Minor")) = false ∧
    hasSub minPat (normalize_key (strOf "C# Minor")) = false ∧
    normalize_key (normalize_key (strOf "C# Minor")) = normalize_key (strOf "C# Minor") :=
  ⟨by decide, by decide, c8_amended.2 (strOf "C# Minor") (by decide) (by decide)⟩

/-- C5 (counterexample): the claim says a non-suffix `" major"` is left unchanged,
but the code's `str.replace` removes every occurrence: `"a major b"` normalizes to
itself and does not end in `" major"`, yet `normalize_key` turns it into `"a b"`. -/
theorem c5_counterexample :
    norm (strOf "a major b") = strOf "a major b" ∧
    normalize_key (strOf "a major b") = strOf "a b" ∧
    strOf "a b" ≠ strOf "a major b" := ⟨by decide, by decide, by decide⟩

/-- C5 (amended): `normalize_key` applies `normalize` and then replaces EVERY
occurrence of `" major"` by `""` and then every occurrence of `" minor"` by `"m"`.
In particular, on inputs whose only occurrence is a trailing `" major"` or
`" minor"`, it behaves exactly as the claim describes. -/
theorem c5_amended : ∀ s t : Str,
    (hasSub majPat (norm s) = false → hasSub minPat (norm s) = false →
      normalize_key s = norm s) ∧
    (norm s = t ++ majPat → hasSub majPat (t ++ majPat.dropLast) = false →
      hasSub minPat t = false → normalize_key s = t) ∧
    (norm s = t ++ minPat → hasSub minPat (t ++ minPat.dropLast) = false →
      hasSub majPat (norm s) = false → normalize_key s = t ++ strOf "m") := by
  intro s t
  refine ⟨fun h1 h2 => ?_, fun he h1 h2 => ?_, fun he h1 h2 => ?_⟩
  · rw [normalize_key_def, replaceAll_no_occur h1, replaceAll_no_occur h2]
  · rw [normalize_key_def, he,
      replaceAll_append_pat (by decide) (noEarly_of_hasSub_dropLast (by decide) h1),
      List.append_nil, replaceAll_no_occur h2]
  · rw [normalize_key_def, replaceAll_no_occur h2, he,
      replaceAll_append_pat (by decide) (noEarly_of_hasSub_dropLast (by decide) h1)]

theorem c5_witness :
    normalize_key (strOf "C") = norm (strOf "C") ∧
    normalize_key (strOf "Eb Major") = strOf "eb" ∧
    normalize_key (strOf "b minor") = strOf "b" ++ strOf "m" :=
  ⟨(c5_amended (strOf "C") []).1 (by decide) (by decide),
   (c5_amended (strOf "Eb Major") (strOf "eb")).2.1 (by decide) (by decide) (by decide),
   (c5_amended (strOf "b minor") (strOf "b")).2.2 (by decide) (by decide) (by decide)⟩

theorem natStr_ne_nil (n : Nat) : natStr n ≠ [] := by
  unfold natStr natStrAux
  by_cases h : n < 10
  · simp [h]
  · simp [h]

theorem intStr_ne_nil (z : Int) : intStr z ≠ [] := by
  unfold intStr
  by_cases h : z < 0
  · simp [h]
  · simp [h, natStr_ne_nil]

/-- C4 (counterexample): a record whose bpm field is `"0"` parses to the integer
`0`, but its `bpm_n` is the empty string, not `"0"` (Python's `or` treats `0` as
falsy in `str(to_int(bpm) or "")`). -/
theorem c4_counterexample :
    to_int (strOf "0") = some 0 ∧
    (Song.normalized { bpm := strOf "0" }).bpm_n = [] ∧
    intStr 0 ≠ [] := ⟨by decide, by decide, by decide⟩

/-- C4 (amended): for a bpm parsing to a NONZERO integer `n`, `bpm_n` is the
decimal string of `n`; `bpm_n` is empty exactly when bpm is unparsable OR parses
to `0`. -/
theorem c4_amended : ∀ s : Song,
    (∀ n : Int, to_int s.bpm = some n → n ≠ 0 → s.normalized.bpm_n = intStr n) ∧
    (s.normalized.bpm_n = [] ↔ to_int s.bpm = none ∨ to_int s.bpm = some 0) := by
  intro s
  constructor
  · intro n hn hn0
    show bpmStrOf s.bpm = intStr n
    unfold bpmStrOf
    rw [hn]
    simp [hn0]
  · show bpmStrOf s.bpm = [] ↔ _
    unfold bpmStrOf
    cases hn : to_int s.bpm with
    | none => simp
    | some n =>
      by_cases h0 : n = 0
      · simp [h0]
      · refine iff_of_false ?_ (by simp [h0])
        simp only [h0, if_false]
        exact intStr_ne_nil n

theorem c4_witness :
    ({ bpm := strOf "118" } : Song).normalized.bpm_n = intStr 118 :=
  (c4_amended { bpm := strOf "118" }).1 118 (by decide) (by decide)

/-! ## Serialization round-trip -/

theorem decSong_encSong (s : Song) : decSong (encSong s) = some s := by
  cases s
  rfl

theorem decNorm_encNorm (n : NormRec) : decNorm (encNorm n) = some n := by
  cases n
  rfl

theorem decStr_jstr (s : Str) : decStr (Jv.jstr s) = some s := rfl

theorem mapM_dec_enc {α β : Type} (enc : α → β) (dec : β → Option α)
    (h : ∀ a, dec (enc a) = some a) : ∀ l : List α, (l.map enc).mapM dec = some l
  | [] => rfl
  | a :: t => by
    rw [List.map_cons, List.mapM_cons, h a, mapM_dec_enc enc dec h t]
    rfl

/-- Deserializing the serialized payload restores the exact index. -/
theorem from_to_bytes (ix : SongIndex) :
    SongIndex.from_bytes (SongIndex.to_bytes ix) = some ix := by
  cases ix with
  | mk items norms texts =>
    simp only [SongIndex.to_bytes, SongIndex.from_bytes]
    rw [if_pos (by refine ⟨?_, ?_, ?_⟩ <;> trivial)]
    rw [mapM_dec_enc encSong decSong decSong_encSong,
      mapM_dec_enc encNorm decNorm decNorm_encNorm,
      mapM_dec_enc Jv.jstr decStr decStr_jstr]
    rfl

/-- C1: for every index, deserializing the bytes produced by serializing it yields
an index with identical track records, normalized records and coarse search texts,
in the same order. -/
theorem c1_roundtrip : ∀ ix : SongIndex, ∃ ix2,
    SongIndex.from_bytes (SongIndex.to_bytes ix) = some ix2 ∧
    ix2.items = ix.items ∧ ix2.norms = ix.norms ∧ ix2.search_texts = ix.search_texts :=
  fun ix => ⟨ix, from_to_bytes ix, rfl, rfl, rfl⟩

/-! ## Alignment invariant -/

theorem getD_map {α β : Type} (f : α → β) (l : List α) (i : Nat) (hi : i < l.length)
    (d : β) (d' : α) : (l.map f).getD i d = f (l.getD i d') := by
  rw [List.getD_eq_getElem?_getD, List.getD_eq_getElem?_getD, List.getElem?_map,
    List.getElem?_eq_getElem hi]
  rfl

theorem aligned_build (items : List Song) : Aligned (SongIndex.build items) := by
  unfold Aligned SongIndex.build
  simp only [List.length_map]
  refine ⟨by trivial, by trivial, ?_⟩
  intro i hi
  exact ⟨getD_map Song.normalized items i hi dNorm dSong,
    by rw [getD_map (fun s => coarseText s.normalized) items i hi [] dSong,
           getD_map Song.normalized items i hi dNorm dSong]⟩

/-- C7: an index built from a record list is aligned, and deserializing the
serialization of an aligned index yields an aligned index; no operation mutates
an index (all are pure functions of it). -/
theorem c7_aligned :
    (∀ items : List Song, Aligned (SongIndex.build items)) ∧
    (∀ ix : SongIndex, Aligned ix → ∀ ix2,
      SongIndex.from_bytes (SongIndex.to_bytes ix) = some ix2 → Aligned ix2) := by
  refine ⟨aligned_build, fun ix h ix2 h2 => ?_⟩
  rw [from_to_bytes ix] at h2
  obtain rfl := Option.some_inj.mp h2
  exact h

theorem c7_witness :
    SongIndex.from_bytes (SongIndex.to_bytes (SongIndex.build [{ title := strOf "x" }])) =
      some (SongIndex.build [{ title := strOf "x" }]) ∧
    Aligned (SongIndex.build [{ title := strOf "x" }]) :=
  ⟨by decide, c7_aligned.2 (SongIndex.build [{ title := strOf "x" }]) (by decide)
    (SongIndex.build [{ title := strOf "x" }]) (by decide)⟩

/-! ## Blank-query guard -/

/-- C9: a blank or whitespace-only query makes the convenience call return the
empty result immediately, for every file system (including one where the index
file does not exist) — the index file is never read. -/
theorem c9_blank_query : ∀ (wr : Str → Str → ℚ) (fs : Str → Option Jv) (query : Str)
    (limit : Int) (threshold : ℚ) (asDict : Bool) (indexPath : Str),
    pyStrip query = [] →
    search_index wr fs query limit threshold asDict indexPath = .ok (emptyOut asDict) := by
  intro wr fs query limit threshold asDict indexPath h
  unfold search_index
  rw [if_pos h]

theorem c9_witness :
    search_index (fun _ _ => 0) (fun _ => none) (strOf "   ") 10 60 false
      (strOf "songs.index") = .ok (emptyOut false) :=
  c9_blank_query _ _ _ _ _ _ _ (by decide)

/-! ## The stable descending sort -/

theorem mem_insDesc {a b : Nat × ℚ} : ∀ {l : List (Nat × ℚ)}, b ∈ insDesc a l → b = a ∨ b ∈ l
  | [], h => by
    rw [insDesc] at h
    exact Or.inl (List.mem_singleton.mp h)
  | c :: t, h => by
    rw [insDesc] at h
    by_cases hc : c.2 ≤ a.2
    · rw [if_pos hc] at h
      rcases List.mem_cons.mp h with rfl | h
      · exact Or.inl rfl
      · exact Or.inr h
    · rw [if_neg hc] at h
      rcases List.mem_cons.mp h with rfl | h
      · exact Or.inr (by simp)
      · rcases mem_insDesc h with h1 | h1
        · exact Or.inl h1
        · exact Or.inr (List.mem_cons_of_mem _ h1)

theorem mem_pySortDesc {b : Nat × ℚ} : ∀ {l : List (Nat × ℚ)}, b ∈ pySortDesc l → b ∈ l
  | a :: t, h => by
    rw [pySortDesc] at h
    rcases mem_insDesc h with rfl | h
    · simp
    · exact List.mem_cons_of_mem _ (mem_pySortDesc h)

theorem pairwise_insDesc {a : Nat × ℚ} : ∀ {l : List (Nat × ℚ)},
    l.Pairwise (fun x y => y.2 ≤ x.2) → (insDesc a l).Pairwise (fun x y => y.2 ≤ x.2)
  | [], _ => by simp [insDesc]
  | b :: t, h => by
    rw [insDesc]
    rw [List.pairwise_cons] at h
    by_cases hb : b.2 ≤ a.2
    · rw [if_pos hb]
      refine List.Pairwise.cons ?_ (List.Pairwise.cons h.1 h.2)
      intro y hy
      rcases List.mem_cons.mp hy with rfl | hy
      · exact hb
      · exact le_trans (h.1 y hy) hb
    · rw [if_neg hb]
      refine List.Pairwise.cons ?_ (pairwise_insDesc h.2)
      intro y hy
      rcases mem_insDesc hy with rfl | hy
      · exact le_of_not_le hb
      · exact h.1 y hy

theorem pairwise_pySortDesc : ∀ l : List (Nat × ℚ),
    (pySortDesc l).Pairwise (fun x y => y.2 ≤ x.2)
  | [] => List.Pairwise.nil
  | _ :: t => pairwise_insDesc (pairwise_pySortDesc t)

theorem filter_insDesc (k : ℚ) (a : Nat × ℚ) : ∀ l : List (Nat × ℚ),
    (insDesc a l).filter (fun p => decide (p.2 = k)) =
      if a.2 = k then a :: l.filter (fun p => decide (p.2 = k))
      else l.filter (fun p => decide (p.2 = k))
  | [] => by
    by_cases hk : a.2 = k <;> simp [insDesc, List.filter, hk]
  | b :: t => by
    rw [insDesc]
    by_cases hb : b.2 ≤ a.2
    · rw [if_pos hb]
      by_cases hk : a.2 = k <;> simp [List.filter_cons, hk]
    · rw [if_neg hb]
      rw [List.filter_cons, filter_insDesc k a t]
      by_cases hk : a.2 = k
      · have hbk : ¬(b.2 = k) := by
          intro hcon
          rw [← hk] at hcon
          exact hb (le_of_eq hcon)
        simp [hk, hbk, List.filter_cons]
      · by_cases hfb : b.2 = k <;> simp [hk, hfb, List.filter_cons]

theorem filter_pySortDesc (k : ℚ) : ∀ l : List (Nat × ℚ),
    (pySortDesc l).filter (fun p => decide (p.2 = k)) =
      l.filter (fun p => decide (p.2 = k))
  | [] => rfl
  | a :: t => by
    rw [pySortDesc, filter_insDesc, filter_pySortDesc k t, List.filter_cons]
    by_cases hk : a.2 = k <;> simp [hk]

/-- Stability: a pair of equal-score elements appearing in order in the sorted
list already appeared in that order in the input. -/
theorem stable_pair {a b : Nat × ℚ} {l : List (Nat × ℚ)} (hk : a.2 = b.2)
    (h : List.Sublist [a, b] (pySortDesc l)) : List.Sublist [a, b] l := by
  have hf : [a, b].filter (fun p => decide (p.2 = b.2)) = [a, b] := by
    simp [List.filter, hk]
  have h2 : List.Sublist [a, b] ((pySortDesc l).filter (fun p => decide (p.2 = b.2))) := by
    rw [← hf]
    exact List.Sublist.filter _ h
  rw [filter_pySortDesc] at h2
  exact h2.trans (List.filter_sublist l)

theorem pairwise_fst_filterMap {g : Nat → Option (Nat × ℚ)}
    (hg : ∀ i p, g i = some p → p.1 = i) :
    ∀ {l : List Nat}, l.Pairwise (· < ·) →
      (l.filterMap g).Pairwise (fun x y => x.1 < y.1)
  | [], _ => by simp
  | i :: t, h => by
    rw [List.filterMap_cons]
    rw [List.pairwise_cons] at h
    cases hgi : g i with
    | none => exact pairwise_fst_filterMap hg h.2
    | some p =>
      refine List.Pairwise.cons ?_ (pairwise_fst_filterMap hg h.2)
      intro y hy
      rcases List.mem_filterMap.mp hy with ⟨j, hj, hyj⟩
      rw [hg i p hgi, hg j y hyj]
      exact h.1 j hj

theorem pairwise_fst_search_pre_empty (wr : Str → Str → ℚ) (ix : SongIndex)
    (q : Str) (L : Nat) (T : ℚ) (hq : (parse_query q).1 = []) :
    (SongIndex.search_pre wr ix q L T).Pairwise (fun x y => x.1 < y.1) := by
  simp only [SongIndex.search_pre, hq, reduceIte]
  refine pairwise_fst_filterMap ?_ ((List.pairwise_lt_range _).filter _)
  intro i p hp
  by_cases hts : T ≤ SongIndex.score wr ix (ix.norms.getD i dNorm).title_n i
  · rw [if_pos hts, Option.some_inj] at hp
    rw [← hp]
  · rw [if_neg hts] at hp
    exact absurd hp (by simp)

/-- C10: the final ranking is the stable descending sort on weighted score: the
returned list is the truncated image of the sorted scored list; scores are
descending; two equal-score results keep the relative order in which they entered
the scoring stage (`search_pre`); with empty free text, equal-score results appear
in ascending original index order. -/
theorem c10_stable_sort (wr : Str → Str → ℚ) (ix : SongIndex) (q : Str)
    (L : Nat) (T : ℚ) :
    ix.search wr q L T = ((ix.search_scored wr q L T).take L).map
      (fun p => (ix.items.getD p.1 dSong, round2 p.2)) ∧
    (ix.search_scored wr q L T).Pairwise (fun x y => y.2 ≤ x.2) ∧
    (∀ a b : Nat × ℚ, a.2 = b.2 →
      List.Sublist [a, b] ((ix.search_scored wr q L T).take L) →
      List.Sublist [a, b] (ix.search_pre wr q L T)) ∧
    ((parse_query q).1 = [] → ∀ a b : Nat × ℚ, a.2 = b.2 →
      List.Sublist [a, b] ((ix.search_scored wr q L T).take L) → a.1 < b.1) := by
  refine ⟨rfl, pairwise_pySortDesc _, ?_, ?_⟩
  · intro a b hk hsub
    exact stable_pair hk (hsub.trans (List.take_sublist _ _))
  · intro hq a b hk hsub
    have h1 := stable_pair hk (hsub.trans (List.take_sublist _ _))
    have h2 := List.Pairwise.sublist h1 (pairwise_fst_search_pre_empty wr ix q L T hq)
    rw [List.pairwise_cons] at h2
    exact h2.1 b (by simp)

theorem c10_witness :
    (parse_query ([] : Str)).1 = [] ∧
    ((0 : Nat), (55 : ℚ)).2 = ((1 : Nat), (55 : ℚ)).2 ∧
    List.Sublist [((0 : Nat), (55 : ℚ)), (1, 55)]
      (((SongIndex.build [{ title := strOf "x" }, { title := strOf "x" }]).search_scored
        (fun _ _ => 100) [] 10 0).take 10) ∧
    (0 : Nat) < 1 := by
  have hsc : (SongIndex.build [{ title := strOf "x" }, { title := strOf "x" }]).search_scored
      (fun _ _ => 100) [] 10 0 = [(0, 55), (1, 55)] := by decide
  have hsub : List.Sublist [((0 : Nat), (55 : ℚ)), (1, 55)]
      (((SongIndex.build [{ title := strOf "x" }, { title := strOf "x" }]).search_scored
        (fun _ _ => 100) [] 10 0).take 10) := by
    rw [hsc]
    simp
  exact ⟨by decide, rfl, hsub,
    (c10_stable_sort (fun _ _ => 100)
      (SongIndex.build [{ title := strOf "x" }, { title := strOf "x" }]) [] 10 0).2.2.2
      (by decide) (0, 55) (1, 55) rfl hsub⟩

/-! ## Score and rounding bounds -/

theorem rhe_ge (x : ℚ) : x - 1/2 ≤ (roundHalfEven x : ℚ) := by
  unfold roundHalfEven
  have hf := Int.floor_le x
  have hc := Int.lt_floor_add_one x
  split_ifs with h1 h2 h3 <;> push_cast <;> linarith

theorem rhe_le (x : ℚ) : (roundHalfEven x : ℚ) ≤ x + 1/2 := by
  unfold roundHalfEven
  have hf := Int.floor_le x
  have hc := Int.lt_floor_add_one x
  split_ifs with h1 h2 h3 <;> push_cast <;> linarith

theorem round2_nonneg {x : ℚ} (h : 0 ≤ x) : 0 ≤ round2 x := by
  unfold round2
  have h1 := rhe_ge (x * 100)
  have h2 : (0 : ℤ) ≤ roundHalfEven (x * 100) := by
    by_contra hcon
    push_neg at hcon
    have h3 : roundHalfEven (x * 100) ≤ -1 := by omega
    have h4 : (roundHalfEven (x * 100) : ℚ) ≤ -1 := by exact_mod_cast h3
    linarith
  have h5 : (0 : ℚ) ≤ (roundHalfEven (x * 100) : ℚ) := by exact_mod_cast h2
  positivity

theorem round2_le_100 {x : ℚ} (h : x ≤ 100) : round2 x ≤ 100 := by
  unfold round2
  have h1 := rhe_le (x * 100)
  have h2 : roundHalfEven (x * 100) ≤ 10000 := by
    by_contra hcon
    push_neg at hcon
    have h3 : (10001 : ℤ) ≤ roundHalfEven (x * 100) := by omega
    have h4 : (10001 : ℚ) ≤ (roundHalfEven (x * 100) : ℚ) := by exact_mod_cast h3
    linarith
  have h5 : (roundHalfEven (x * 100) : ℚ) ≤ 10000 := by exact_mod_cast h2
  rw [div_le_iff₀ (by norm_num : (0:ℚ) < 100)]
  linarith

theorem round2_ge_sub {x T : ℚ} (h : T ≤ x) : T - 1/200 ≤ round2 x := by
  unfold round2
  have h1 := rhe_ge (x * 100)
  rw [le_div_iff₀ (by norm_num : (0:ℚ) < 100)]
  linarith

theorem score_bounds (wr : Str → Str → ℚ) (hwr : ∀ a b, 0 ≤ wr a b ∧ wr a b ≤ 100)
    (ix : SongIndex) (q : Str) (i : Nat) :
    0 ≤ SongIndex.score wr ix q i ∧ SongIndex.score wr ix q i ≤ 100 := by
  simp only [SongIndex.score]
  have hb : ∀ t : Str, 0 ≤ (if t = [] then (0:ℚ) else wr q t) ∧
      (if t = [] then (0:ℚ) else wr q t) ≤ 100 := by
    intro t
    split_ifs with h
    · exact ⟨le_refl 0, by norm_num⟩
    · exact ⟨(hwr q t).1, (hwr q t).2⟩
  obtain ⟨a1, a2⟩ := hb (ix.norms.getD i dNorm).title_n
  obtain ⟨b1, b2⟩ := hb (ix.norms.getD i dNorm).artist_n
  obtain ⟨c1, c2⟩ := hb (ix.norms.getD i dNorm).album_n
  constructor <;> linarith

/-- C6 (amended): with the similarity metric bounded in `[0,100]` and `limit ≥ 1`,
search returns at most `limit` results, every returned (rounded) score lies in
`[0, 100]`, and no returned score is below `threshold - 0.005` (the pre-rounding
score is at least `threshold`, but rounding to two decimals can dip below
`threshold` by up to half a cent). -/
theorem c6_amended (wr : Str → Str → ℚ) (ix : SongIndex) (q : Str) (L : Nat) (T : ℚ)
    (hwr : ∀ a b, 0 ≤ wr a b ∧ wr a b ≤ 100) (_hL : 1 ≤ L) :
    (ix.search wr q L T).length ≤ L ∧
    ∀ p ∈ ix.search wr q L T, 0 ≤ p.2 ∧ p.2 ≤ 100 ∧ T - 1/200 ≤ p.2 := by
  constructor
  · simp only [SongIndex.search, List.length_map, List.length_take]
    omega
  · intro p hp
    rcases List.mem_map.mp hp with ⟨⟨i, r⟩, hir, hpe⟩
    have hpre : (i, r) ∈ ix.search_pre wr q L T :=
      mem_pySortDesc ((List.take_sublist _ _).subset hir)
    simp only [SongIndex.search_pre] at hpre
    rcases List.mem_filterMap.mp hpre with ⟨j, _, hjeq⟩
    by_cases hts : T ≤ SongIndex.score wr ix
        (if (parse_query q).1 = [] then (ix.norms.getD j dNorm).title_n else (parse_query q).1) j
    · rw [if_pos hts, Option.some_inj, Prod.mk.injEq] at hjeq
      obtain ⟨_, hrs⟩ := hjeq
      rw [hrs] at hts
      obtain ⟨hs0, hs100⟩ := score_bounds wr hwr ix
        (if (parse_query q).1 = [] then (ix.norms.getD j dNorm).title_n else (parse_query q).1) j
      rw [hrs] at hs0 hs100
      subst hpe
      exact ⟨round2_nonneg hs0, round2_le_100 hs100, round2_ge_sub hts⟩
    · rw [if_neg hts] at hjeq
      exact absurd hjeq (by simp)

/-- C6 (counterexample): with the constant metric `60.0001` (within `[0,100]`),
one fully-populated record, empty query, `limit = 10` and
`threshold = 60.0001`, the pre-rounding score `60.0001` passes the threshold but
the returned rounded score `60` is strictly below the threshold. -/
theorem c6_counterexample :
    (0 : ℚ) ≤ 600001/10000 ∧ (600001/10000 : ℚ) ≤ 100 ∧
    (SongIndex.build [{ title := strOf "a", artist := strOf "b", album := strOf "c" }]).search
      (fun _ _ => 600001/10000) [] 10 (600001/10000) =
      [({ title := strOf "a", artist := strOf "b", album := strOf "c" }, 60)] ∧
    (60 : ℚ) < 600001/10000 :=
  ⟨by decide, by decide, by decide, by decide⟩

theorem c6_witness :
    ((SongIndex.build [{ title := strOf "a" }]).search (fun _ _ => 100) [] 10 0).length ≤ 10 ∧
    (0 ≤ (55 : ℚ) ∧ (55 : ℚ) ≤ 100 ∧ (0 : ℚ) - 1/200 ≤ 55) := by
  have h := c6_amended (fun _ _ => 100) (SongIndex.build [{ title := strOf "a" }]) [] 10 0
    (fun a b => ⟨by norm_num, by norm_num⟩) (by decide)
  exact ⟨h.1, h.2 ({ title := strOf "a" }, 55) (by decide)⟩

/-- C2 (amended): every record returned by search satisfies all filters active in
the parsed query: title/artist/album filter values are substrings of the
corresponding normalized fields, the KEY filter value is a substring of `key_n`
only after the major/minor compaction is applied to the value itself, a bpm
filter's literal string equals `bpm_n` exactly, and a bpm range brackets the
integer parsed from `bpm_n`. -/
theorem c2_amended (wr : Str → Str → ℚ) (ix : SongIndex) (q : Str) (L : Nat) (T : ℚ)
    (hA : Aligned ix) :
    ∀ p ∈ ix.search wr q L T,
      (∀ v, (parse_query q).2.2.title = some v → hasSub v p.1.normalized.title_n = true) ∧
      (∀ v, (parse_query q).2.2.artist = some v → hasSub v p.1.normalized.artist_n = true) ∧
      (∀ v, (parse_query q).2.2.album = some v → hasSub v p.1.normalized.album_n = true) ∧
      (∀ v, (parse_query q).2.2.key = some v →
        hasSub (replaceAll minPat (strOf "m") (replaceAll majPat [] v))
          p.1.normalized.key_n = true) ∧
      (∀ v, (parse_query q).2.2.bpm = some v → v = p.1.normalized.bpm_n) ∧
      (∀ lo hi, (parse_query q).2.2.bpm_range = some (lo, hi) →
        ∃ b, to_int p.1.normalized.bpm_n = some b ∧ (lo : Int) ≤ b ∧ b ≤ (hi : Int)) := by
  intro p hp
  rcases List.mem_map.mp hp with ⟨⟨i, r⟩, hir, hpe⟩
  have hpre : (i, r) ∈ ix.search_pre wr q L T :=
    mem_pySortDesc ((List.take_sublist _ _).subset hir)
  simp only [SongIndex.search_pre] at hpre
  rcases List.mem_filterMap.mp hpre with ⟨j, hj, hjeq⟩
  by_cases hts : T ≤ SongIndex.score wr ix
      (if (parse_query q).1 = [] then (ix.norms.getD j dNorm).title_n else (parse_query q).1) j
  · rw [if_pos hts, Option.some_inj, Prod.mk.injEq] at hjeq
    obtain ⟨hji, _⟩ := hjeq
    rcases List.mem_filter.mp hj with ⟨_, hjf⟩
    have hjmem : j ∈ ix.filter_candidates (parse_query q).2.1 (parse_query q).2.2 :=
      List.elem_iff.mp hjf
    unfold SongIndex.filter_candidates at hjmem
    rcases List.mem_filterMap.mp hjmem with ⟨⟨k, n⟩, hkn, hkeq⟩
    by_cases hok : candOk (parse_query q).2.1 (parse_query q).2.2 (k, n).2 = true
    · rw [if_pos hok, Option.some_inj] at hkeq
      have hget : ix.norms[k]? = some n := List.mem_enum_iff_getElem?.mp hkn
      have hklen : k < ix.norms.length := by
        rcases List.getElem?_eq_some.mp hget with ⟨h, _⟩
        exact h
      have hgetD : ix.norms.getD k dNorm = n := by
        rw [List.getD_eq_getElem?_getD, hget]
        rfl
      obtain ⟨hlen1, _, hpt⟩ := hA
      have hklen' : k < ix.items.length := by omega
      have hnp : (ix.items.getD k dSong).normalized = n := by
        rw [← (hpt k hklen').1, hgetD]
      have hik : i = k := by
        rw [← hji, ← hkeq]
      have hp1 : p.1 = ix.items.getD i dSong := by
        rw [← hpe]
      rw [hp1, hik, hnp]
      simp only [candOk, Bool.and_eq_true] at hok
      obtain ⟨⟨⟨⟨⟨⟨_h1, h2⟩, h3⟩, h4⟩, h5⟩, h6⟩, h7⟩ := hok
      refine ⟨?_, ?_, ?_, ?_, ?_, ?_⟩
      · intro v hv
        rw [hv] at h3
        exact h3
      · intro v hv
        rw [hv] at h2
        exact h2
      · intro v hv
        rw [hv] at h4
        exact h4
      · intro v hv
        rw [hv] at h5
        exact h5
      · intro v hv
        rw [hv] at h6
        simpa using h6
      · intro lo hi hv
        rw [hv] at h7
        cases hb : to_int n.bpm_n with
        | none =>
          rw [hb] at h7
          simp at h7
        | some b =>
          rw [hb] at h7
          have h7' : (decide ((lo : Int) ≤ b) && decide (b ≤ (hi : Int))) = true := h7
          rw [Bool.and_eq_true] at h7'
          exact ⟨b, rfl, of_decide_eq_true h7'.1, of_decide_eq_true h7'.2⟩
    · rw [if_neg hok] at hkeq
      exact absurd hkeq (by simp)
  · rw [if_neg hts] at hjeq
    exact absurd hjeq (by simp)

/-- C2 (counterexample): the query `key:c minor` stores the filter value
`"c minor"`; the record with key `"C Minor"` has `key_n = "cm"` and is returned
by search, yet `"c minor"` is not a substring of `"cm"` — the check passes only
because `filter_candidates` compacts the filter value first. -/
theorem c2_counterexample :
    (parse_query (strOf "key:c minor")).2.2.key = some (strOf "c minor") ∧
    (SongIndex.build [{ title := strOf "t", key := strOf "C Minor" }]).search
      (fun _ _ => 100) (strOf "key:c minor") 10 0 =
      [({ title := strOf "t", key := strOf "C Minor" }, 55)] ∧
    hasSub (strOf "c minor")
      ({ title := strOf "t", key := strOf "C Minor" } : Song).normalized.key_n = false :=
  ⟨by decide, by decide, by decide⟩

theorem c2_witness :
    hasSub (replaceAll minPat (strOf "m") (replaceAll majPat [] (strOf "c minor")))
      ({ title := strOf "t", key := strOf "C Minor" } : Song).normalized.key_n = true := by
  have h := c2_amended (fun _ _ => 100)
    (SongIndex.build [{ title := strOf "t", key := strOf "C Minor" }])
    (strOf "key:c minor") 10 0 (by decide)
    ({ title := strOf "t", key := strOf "C Minor" }, 55) (by decide)
  exact h.2.2.2.1 (strOf "c minor") (by decide)

/-! ## C3: unquoted field-filter values and whitespace -/

theorem la_spec {c : Nat} (h : isLowerAlpha c = true) : 97 ≤ c ∧ c ≤ 122 := by
  simp only [isLowerAlpha, Bool.and_eq_true, decide_eq_true_eq] at h
  exact h

theorem la_not_ws {c : Nat} (h : isLowerAlpha c = true) : isWsCh c = false := by
  have hb := la_spec h
  simp only [isWsCh, Bool.or_eq_false_iff, beq_eq_false_iff_ne, ne_eq]
  omega

theorem la_ne_39 {c : Nat} (h : isLowerAlpha c = true) : c ≠ 39 := by
  have hb := la_spec h
  omega

theorem la_ne_58 {c : Nat} (h : isLowerAlpha c = true) : c ≠ 58 := by
  have hb := la_spec h
  omega

theorem la_canonCh {c : Nat} (h : isLowerAlpha c = true) : canonCh c := by
  have hb := la_spec h
  refine ⟨?_, ?_, ?_⟩
  · rw [lowerCh, if_neg (by omega)]
  · simp only [isKeptCh, isWordCh, Bool.or_eq_true, Bool.and_eq_true, decide_eq_true_eq,
      beq_iff_eq]
    omega
  · intro hws
    rw [la_not_ws h] at hws
    cases hws

theorem dropWsCount_cons_nonws {c : Nat} {cs : Str} (h : isWsCh c = false) :
    dropWsCount (c :: cs) = (0, c :: cs) := by
  simp [dropWsCount, h]

theorem dropWsCount_snd_suffixOf : ∀ s : Str, (dropWsCount s).2 <:+ s
  | [] => List.suffix_refl _
  | c :: cs => by
    by_cases h : isWsCh c = true
    · simp only [dropWsCount, if_pos h]
      exact (dropWsCount_snd_suffixOf cs).trans (List.suffix_cons c cs)
    · simp only [dropWsCount, if_neg h]
      exact List.suffix_refl _

theorem mem_dropWsCount_snd {s : Str} {c : Nat} (h : c ∈ (dropWsCount s).2) : c ∈ s :=
  (dropWsCount_snd_suffixOf s).subset h

theorem takeNotApos_all : ∀ {s : Str}, (∀ c ∈ s, c ≠ 39) → takeNotApos s = (s, [])
  | [], _ => rfl
  | c :: cs, h => by
    have hc : (c == 39) = false := by
      simp only [beq_eq_false_iff_ne, ne_eq]
      exact h c (by simp)
    rw [takeNotApos, takeNotApos_all (fun d hd => h d (List.mem_cons_of_mem _ hd)), hc]
    simp

theorem chCI_suffix {t : Nat} : ∀ {s r : Str}, chCI t s = some r → r <:+ s
  | [], r, h => by simp [chCI] at h
  | c :: cs, r, h => by
    by_cases hc : (lowerCh c == t) = true
    · rw [chCI, if_pos hc, Option.some_inj] at h
      rw [← h]
      exact List.suffix_cons c cs
    · rw [chCI, if_neg hc] at h
      cases h

/-- If the first character does not lower-case to `b`, the bpm-range pattern
cannot match at this position. -/
theorem matchRange_none_head {prev : Option Nat} {c : Nat} {cs : Str}
    (h : lowerCh c ≠ 98) : matchRange prev (c :: cs) = none := by
  have hc : chCI 98 (c :: cs) = none := by
    rw [chCI, if_neg (by simpa using h)]
  cases hb : boundaryOk prev
  · simp [matchRange, hb]
  · simp [matchRange, hb, hc]

/-- If the input contains no colon, the bpm-range pattern cannot match. -/
theorem matchRange_none_no_colon {prev : Option Nat} {s : Str}
    (h : ∀ c ∈ s, c ≠ 58) : matchRange prev s = none := by
  unfold matchRange
  cases hb : boundaryOk prev
  · simp
  · simp only [Bool.not_true, Bool.false_eq_true, if_false]
    cases h1 : chCI 98 s with
    | none => simp
    | some s1 =>
      rw [Option.some_bind]
      cases h2 : chCI 112 s1 with
      | none => simp
      | some s2 =>
        rw [Option.some_bind]
        cases h3 : chCI 109 s2 with
        | none => simp
        | some rest =>
          rw [Option.some_bind]
          have hrest : rest <:+ s :=
            ((chCI_suffix h3).trans (chCI_suffix h2)).trans (chCI_suffix h1)
          cases hu : (dropWsCount rest).2 with
          | nil => simp [hu, chEq]
          | cons c1 r2 =>
            have hc1 : c1 ∈ s :=
              hrest.subset (mem_dropWsCount_snd (s := rest) (by rw [hu]; simp))
            have hne : (c1 == 58) = false := by
              simp only [beq_eq_false_iff_ne, ne_eq]
              exact h c1 hc1
            simp [hu, chEq, hne]

/-- A matcher that fails at every nonempty suffix never finds a match. -/
theorem findFirstAux_none {τ : Type} {m : Option Nat → Str → Option (Nat × τ)} :
    ∀ {s : Str} {prev : Option Nat},
      (∀ prev2 t, t <:+ s → t ≠ [] → m prev2 t = none) →
      findFirstAux m prev s = none
  | [], _, _ => rfl
  | c :: cs, prev, h => by
    have h0 : m prev (c :: cs) = none := h prev (c :: cs) (List.suffix_refl _) (by simp)
    unfold findFirstAux
    rw [h0]
    exact findFirstAux_none (fun prev2 t ht htn => h prev2 t (ht.trans (List.suffix_cons c cs)) htn)

/-- A suffix of `a ++ b` is a suffix of `b`, or is a nonempty suffix of `a`
followed by all of `b`. -/
theorem suffixOf_append_cases {α : Type} {t a b : List α} (h : t <:+ a ++ b) :
    t <:+ b ∨ ∃ c a2, c :: a2 <:+ a ∧ t = c :: (a2 ++ b) := by
  obtain ⟨pre, hpre⟩ := h
  rcases List.append_eq_append_iff.mp hpre with ⟨x, hx1, hx2⟩ | ⟨x, hx1, hx2⟩
  · cases x with
    | nil =>
      left
      rw [hx2, List.nil_append]
    | cons c a2 =>
      right
      exact ⟨c, a2, ⟨pre, hx1.symm⟩, by rw [hx2]; rfl⟩
  · left
    exact ⟨x, hx2.symm⟩

theorem findAllAux_nil {τ : Type} (m : Option Nat → Str → Option (Nat × τ)) :
    ∀ (f : Nat) (prev : Option Nat), findAllAux m f prev [] = []
  | 0, _ => rfl
  | _ + 1, _ => rfl

theorem removeAllAux_nil_str {τ : Type} (m : Option Nat → Str → Option (Nat × τ)) :
    ∀ (f : Nat) (prev : Option Nat), removeAllAux m f prev [] = []
  | 0, _ => rfl
  | _ + 1, _ => rfl

/-- If the matcher consumes the whole (nonempty) string at position 0, `findAll`
returns exactly that one token. -/
theorem findAll_single {τ : Type} {m : Option Nat → Str → Option (Nat × τ)} {s : Str}
    {k : Nat} {t : τ} (hs : s ≠ []) (h : m none s = some (k, t)) (hk : s.length ≤ k) :
    findAll m s = [t] := by
  cases s with
  | nil => exact absurd rfl hs
  | cons c cs =>
    show findAllAux m (c :: cs).length none (c :: cs) = [t]
    rw [List.length_cons]
    unfold findAllAux
    rw [h]
    show t :: findAllAux m cs.length (prevAt c cs k) (List.drop (k - 1) cs) = [t]
    have hd : List.drop (k - 1) cs = [] := by
      apply List.drop_eq_nil_of_le
      rw [List.length_cons] at hk
      omega
    rw [hd, findAllAux_nil]

/-- If the matcher consumes the whole (nonempty) string at position 0, `removeAll`
removes everything. -/
theorem removeAll_single {τ : Type} {m : Option Nat → Str → Option (Nat × τ)} {s : Str}
    {k : Nat} {t : τ} (h : m none s = some (k, t)) (hk : s.length ≤ k) :
    removeAll m s = [] := by
  cases s with
  | nil => rfl
  | cons c cs =>
    show removeAllAux m (c :: cs).length none (c :: cs) = []
    rw [List.length_cons]
    unfold removeAllAux
    rw [h]
    show removeAllAux m cs.length (prevAt c cs k) (List.drop (k - 1) cs) = []
    have hd : List.drop (k - 1) cs = [] := by
      apply List.drop_eq_nil_of_le
      rw [List.length_cons] at hk
      omega
    rw [hd, removeAllAux_nil_str]

theorem fieldAlt_title (X : Str) : fieldAlt (strOf "title:" ++ X) = some (.title, 5, 58 :: X) := rfl

/-- The field-pair pattern at the start of `title:<nonws><no-apostrophes>` consumes
the whole input and captures everything after the colon, whitespace included. -/
theorem matchPair_title_eval {u0 : Nat} {r : Str}
    (h0 : isWsCh u0 = false) (hap : ∀ c ∈ r, c ≠ 39) :
    matchPair none (strOf "title:" ++ (u0 :: r)) =
      some (7 + r.length, (.title, u0 :: r)) := by
  have h58 : isWsCh 58 = false := by decide
  rw [matchPair, fieldAlt_title]
  simp only [dropWsCount_cons_nonws h58, dropWsCount_cons_nonws h0,
    takeNotApos_all hap, h0, chEq, beq_self_eq_true, if_true, Bool.not_false,
    Option.some_bind, boundaryOk, Bool.not_true, Bool.false_eq_true, if_false, if_true]

theorem range_scan_none {u w : Str} (hu58 : ∀ c ∈ u, c ≠ 58) (hw58 : ∀ c ∈ w, c ≠ 58) :
    findFirst matchRange (strOf "title:" ++ (u ++ 32 :: w)) = none := by
  refine findFirstAux_none (fun prev2 t ht htn => ?_)
  rcases suffixOf_append_cases ht with hX | ⟨c, a2, ha, rfl⟩
  · rcases List.exists_cons_of_ne_nil htn with ⟨c, t2, rfl⟩
    refine matchRange_none_no_colon (fun d hd => ?_)
    have hdX := hX.subset hd
    rcases List.mem_append.mp hdX with h1 | h2
    · exact hu58 d h1
    · rcases List.mem_cons.mp h2 with rfl | h3
      · omega
      · exact hw58 d h3
  · have hc : c ∈ strOf "title:" := ha.subset (List.mem_cons_self c a2)
    have hl : strOf "title:" = [116, 105, 116, 108, 101, 58] := by decide
    rw [hl] at hc
    have hcn : lowerCh c ≠ 98 := by
      simp only [List.mem_cons, List.not_mem_nil, or_false] at hc
      rcases hc with rfl | rfl | rfl | rfl | rfl | rfl <;> decide
    exact matchRange_none_head hcn

theorem getLast?_through_sep {u0 : Nat} {u2 : Str} {w0 : Nat} {w2 : Str} :
    (u0 :: (u2 ++ 32 :: w0 :: w2)).getLast? = (w0 :: w2).getLast? := by
  show ((u0 :: u2) ++ 32 :: w0 :: w2).getLast? = (w0 :: w2).getLast?
  rw [List.getLast?_append, List.getLast?_cons_cons]
  have hs : (w0 :: w2).getLast?.isSome := List.getLast?_isSome.mpr (by simp)
  obtain ⟨x, hx⟩ := Option.isSome_iff_exists.mp hs
  rw [hx]
  rfl

theorem pyStrip_eq_self_letters {u0 : Nat} {u2 w : Str} (hw : w ≠ [])
    (h0 : isWsCh u0 = false) (hlw : ∀ c ∈ w, isLowerAlpha c = true) :
    pyStrip (u0 :: (u2 ++ 32 :: w)) = u0 :: (u2 ++ 32 :: w) := by
  apply pyStrip_eq_self
  · intro c hc
    rw [List.head?_cons, Option.some_inj] at hc
    exact hc ▸ h0
  · intro c hc
    rcases List.exists_cons_of_ne_nil hw with ⟨w0, w2, rfl⟩
    rw [getLast?_through_sep] at hc
    exact la_not_ws (hlw c (mem_of_getLast?_some hc))

theorem canon_letters_space {u0 : Nat} {u2 w : Str} (hw : w ≠ [])
    (hl0 : isLowerAlpha u0 = true) (hlu : ∀ c ∈ u2, isLowerAlpha c = true)
    (hlw : ∀ c ∈ w, isLowerAlpha c = true) :
    Canon (u0 :: (u2 ++ 32 :: w)) := by
  refine ⟨?_, ?_, ?_, ?_⟩
  · intro c hc
    rcases List.mem_cons.mp hc with rfl | hc2
    · exact la_canonCh hl0
    · rcases List.mem_append.mp hc2 with h1 | h2
      · exact la_canonCh (hlu c h1)
      · rcases List.mem_cons.mp h2 with rfl | h3
        · exact canonCh_32
        · exact la_canonCh (hlw c h3)
  · show noDblWs ((u0 :: u2) ++ 32 :: w)
    unfold noDblWs
    rw [List.chain'_append]
    refine ⟨?_, ?_, ?_⟩
    · apply chain'_of_all_nonws
      intro c hc
      rcases List.mem_cons.mp hc with rfl | hc2
      · exact la_not_ws hl0
      · exact la_not_ws (hlu c hc2)
    · rcases List.exists_cons_of_ne_nil hw with ⟨w0, w2, rfl⟩
      rw [List.chain'_cons]
      refine ⟨?_, ?_⟩
      · rintro ⟨_, hw0⟩
        rw [la_not_ws (hlw w0 (by simp))] at hw0
        cases hw0
      · apply chain'_of_all_nonws
        intro c hc
        exact la_not_ws (hlw c hc)
    · intro x hx y hy
      rintro ⟨hxw, _⟩
      have hxm : x ∈ u0 :: u2 := mem_of_getLast?_some hx
      rcases List.mem_cons.mp hxm with rfl | hx2
      · rw [la_not_ws hl0] at hxw
        cases hxw
      · rw [la_not_ws (hlu x hx2)] at hxw
        cases hxw
  · intro c hc
    rw [List.head?_cons, Option.some_inj] at hc
    exact hc ▸ la_not_ws hl0
  · intro c hc
    rcases List.exists_cons_of_ne_nil hw with ⟨w0, w2, rfl⟩
    rw [getLast?_through_sep] at hc
    exact la_not_ws (hlw c (mem_of_getLast?_some hc))

/-- C3 (amended): an unquoted field-filter value does NOT stop at the first
whitespace character.  For every query `title:<u> <w>` with `u`, `w` nonempty
runs of lower-case letters, the stored title filter is the entire text
`<u> <w>` after the colon (whitespace included), and nothing is left over as
free text or phrase. -/
theorem c3_amended (u w : Str) (hu : u ≠ []) (hw : w ≠ [])
    (hlu : ∀ c ∈ u, isLowerAlpha c = true) (hlw : ∀ c ∈ w, isLowerAlpha c = true) :
    parse_query (strOf "title:" ++ (u ++ 32 :: w)) =
      ([], none, { title := some (u ++ 32 :: w) }) := by
  rcases List.exists_cons_of_ne_nil hu with ⟨u0, u2, rfl⟩
  have hl0 : isLowerAlpha u0 = true := hlu u0 (by simp)
  have hlu2 : ∀ c ∈ u2, isLowerAlpha c = true := fun c hc => hlu c (List.mem_cons_of_mem _ hc)
  have h0ws : isWsCh u0 = false := la_not_ws hl0
  have hX : (u0 :: u2) ++ 32 :: w = u0 :: (u2 ++ 32 :: w) := rfl
  have hap : ∀ c ∈ u2 ++ 32 :: w, c ≠ 39 := by
    intro c hc
    rcases List.mem_append.mp hc with h1 | h2
    · exact la_ne_39 (hlu2 c h1)
    · rcases List.mem_cons.mp h2 with rfl | h3
      · omega
      · exact la_ne_39 (hlw c h3)
  have hrm : findFirst matchRange (strOf "title:" ++ ((u0 :: u2) ++ 32 :: w)) = none :=
    range_scan_none (fun c hc => la_ne_58 (hlu c hc)) (fun c hc => la_ne_58 (hlw c hc))
  have hmp : matchPair none (strOf "title:" ++ ((u0 :: u2) ++ 32 :: w)) =
      some (7 + (u2 ++ 32 :: w).length, (.title, u0 :: (u2 ++ 32 :: w))) := by
    rw [hX]
    exact matchPair_title_eval h0ws hap
  have hklen : (strOf "title:" ++ ((u0 :: u2) ++ 32 :: w)).length ≤ 7 + (u2 ++ 32 :: w).length := by
    rw [List.length_append, hX, List.length_cons]
    have h6 : (strOf "title:").length = 6 := by decide
    omega
  have hQne : strOf "title:" ++ ((u0 :: u2) ++ 32 :: w) ≠ [] := by
    simp [strOf]
  have hfa : findAll matchPair (strOf "title:" ++ ((u0 :: u2) ++ 32 :: w)) =
      [(.title, u0 :: (u2 ++ 32 :: w))] := findAll_single hQne hmp hklen
  have hra : removeAll matchPair (strOf "title:" ++ ((u0 :: u2) ++ 32 :: w)) = [] :=
    removeAll_single hmp hklen
  have hps : pyStrip (u0 :: (u2 ++ 32 :: w)) = u0 :: (u2 ++ 32 :: w) :=
    pyStrip_eq_self_letters hw h0ws hlw
  have hpu : pyUnquote (u0 :: (u2 ++ 32 :: w)) = u0 :: (u2 ++ 32 :: w) := by
    rw [pyUnquote, if_neg]
    rintro ⟨h1, _⟩
    rw [List.head?_cons, Option.some_inj] at h1
    have := la_spec hl0
    omega
  have hn : norm (u0 :: (u2 ++ 32 :: w)) = u0 :: (u2 ++ 32 :: w) :=
    canon_fix (canon_letters_space hw hl0 hlu2 hlw)
  rw [parse_query]
  rw [hrm, hfa, hra]
  simp only [List.cons_ne_nil, if_false, List.foldl_cons, List.foldl_nil]
  rw [applyPair]
  simp only [hps, hpu, hn]
  rfl

/-- C3 (counterexample): for the query `title:ab cd` the stored title filter is
the whole text `ab cd`, not the bare run `ab` ending at the first whitespace,
and nothing is left over as free text. -/
theorem c3_counterexample :
    (parse_query (strOf "title:ab cd")).2.2.title = some (strOf "ab cd") ∧
    (parse_query (strOf "title:ab cd")).1 = [] ∧
    strOf "ab cd" ≠ strOf "ab" :=
  ⟨by decide, by decide, by decide⟩

theorem c3_witness :
    (strOf "ab" : Str) ≠ [] ∧ (strOf "cd" : Str) ≠ [] ∧
    parse_query (strOf "title:" ++ (strOf "ab" ++ 32 :: strOf "cd")) =
      ([], none, { title := some (strOf "ab" ++ 32 :: strOf "cd") }) :=
  ⟨by decide, by decide,
    c3_amended (strOf "ab") (strOf "cd") (by decide) (by decide) (by decide) (by decide)⟩
